import Mathlib

/-!
Verification of the alpaca-rs invocation engine (src/action.rs, src/tool_call.rs,
src/tool_dispatch.rs) against its natural-language specification.

The development shallowly embeds the Rust code:

* `Json` models `serde_json::Value`.  Object maps model `serde_json`'s default
  `BTreeMap` backing: parsed or built objects always keep their fields sorted by
  key (byte-lexicographic, which agrees with Lean's `String` order because UTF-8
  preserves code-point order), with unique keys (later inserts replace earlier
  ones).  Numbers are modelled as unbounded integers: the claims under study do
  not depend on floating-point or integer-width behaviour, so inputs whose
  numbers carry a fraction or exponent are out of the model (the model parser
  rejects them where `serde_json` would build a float).
* `serializeV` models `serde_json::to_string`, `prettyV` models
  `serde_json::to_string_pretty` (two-space indentation).
* `parseValue`/`jsonParseL` model `serde_json::from_str` for such values:
  recursive descent with a fuel argument for termination; the top level passes
  fuel `length + 1`, which is never exhausted because every recursive call
  consumes at least one character.
* Rust byte indices are modelled by `List Char` positions; the two agree at
  every substring boundary the code manipulates because both are monotone in
  the other.
-/

/-- Model of `serde_json::Value`.  `obj` fields are kept key-sorted and
key-unique, mirroring the `BTreeMap` representation of `serde_json::Map`. -/
inductive Json where
  | null : Json
  | bool (b : Bool) : Json
  | num (n : Int) : Json
  | str (s : String) : Json
  | arr (elems : List Json) : Json
  | obj (fields : List (String × Json)) : Json
deriving Repr

/-- The double-quote character. -/
def qChar : Char := Char.ofNat 34

/-- The backslash character. -/
def bsChar : Char := Char.ofNat 92

/-- Opening brace. -/
def lbChar : Char := Char.ofNat 123

/-- Closing brace. -/
def rbChar : Char := Char.ofNat 125

/-- Opening square bracket. -/
def lsqChar : Char := Char.ofNat 91

/-- Closing square bracket. -/
def rsqChar : Char := Char.ofNat 93

/-- Newline character. -/
def nlChar : Char := Char.ofNat 10

/-- Decimal digit characters. -/
def isDigitChar (c : Char) : Bool := 48 ≤ c.toNat && c.toNat ≤ 57

/-- Digit value of a decimal digit character. -/
def digitVal (c : Char) : Nat := c.toNat - 48

/-- Decimal (and hex, below 16) digit character for a digit value,
as `serde_json` prints them (lowercase hex). -/
def digitChr (d : Nat) : Char := Nat.digitChar d

/-- Hex digit predicate (accepting both cases, as `serde_json`'s
`\uXXXX` escape parser does). -/
def isHexChar (c : Char) : Bool :=
  isDigitChar c || (97 ≤ c.toNat && c.toNat ≤ 102) || (65 ≤ c.toNat && c.toNat ≤ 70)

/-- Hex digit value. -/
def hexVal (c : Char) : Nat :=
  if isDigitChar c then c.toNat - 48
  else if 97 ≤ c.toNat then c.toNat - 87
  else c.toNat - 55

/-- Decimal digits of a natural number, most significant first; the fuel
argument (any bound with `n < fuel`) only serves structural termination. -/
def natDecAux : Nat → Nat → List Char
  | 0, _ => []
  | fuel + 1, n =>
    if n < 10 then [digitChr n]
    else natDecAux fuel (n / 10) ++ [digitChr (n % 10)]

/-- Decimal digits of a natural number, most significant first. -/
def natDec (n : Nat) : List Char := natDecAux (n + 1) n

/-- Decimal rendering of an integer, as `itoa` (used by `serde_json`) prints
`i64` values. -/
def intChars (n : Int) : List Char :=
  if n < 0 then '-' :: natDec (- n).toNat else natDec n.toNat

/-- JSON string escaping of one character, following `serde_json`'s serializer:
quote, backslash and the two-character control escapes get a backslash form,
all other control characters a lowercase `\u00XX` form, everything else is
emitted raw. -/
def escapeChar (c : Char) : List Char :=
  if c = qChar then [bsChar, qChar]
  else if c = bsChar then [bsChar, bsChar]
  else if c.toNat = 8 then [bsChar, 'b']
  else if c.toNat = 9 then [bsChar, 't']
  else if c.toNat = 10 then [bsChar, 'n']
  else if c.toNat = 12 then [bsChar, 'f']
  else if c.toNat = 13 then [bsChar, 'r']
  else if c.toNat < 32 then [bsChar, 'u', '0', '0', digitChr (c.toNat / 16), digitChr (c.toNat % 16)]
  else [c]

/-- Serialized form of a JSON string literal, quotes included. -/
def serializeString (s : String) : List Char :=
  qChar :: (s.data.map escapeChar).flatten ++ [qChar]

mutual

/-- Model of `serde_json::to_string` (compact form) on a `Value`. -/
def serializeV : Json → List Char
  | .null => "null".data
  | .bool true => "true".data
  | .bool false => "false".data
  | .num n => intChars n
  | .str s => serializeString s
  | .arr xs => lsqChar :: serializeElemsC xs ++ [rsqChar]
  | .obj fs => lbChar :: serializeFieldsC fs ++ [rbChar]

/-- Compact serialization of array elements, comma separated. -/
def serializeElemsC : List Json → List Char
  | [] => []
  | [x] => serializeV x
  | x :: y :: rest => serializeV x ++ ',' :: serializeElemsC (y :: rest)

/-- Compact serialization of object members, comma separated. -/
def serializeFieldsC : List (String × Json) → List Char
  | [] => []
  | [(k, v)] => serializeString k ++ ':' :: serializeV v
  | (k, v) :: m :: rest =>
      serializeString k ++ ':' :: serializeV v ++ ',' :: serializeFieldsC (m :: rest)

end

/-- The deduplication key the code computes for a candidate:
`serde_json::to_string(&value)` (`to_string` never fails on a `Value`, so the
`unwrap_or_default` in the source is the identity path). -/
def jsonKey (v : Json) : String := String.mk (serializeV v)

/-- Two-space indentation prefix used by `serde_json`'s pretty printer. -/
def indentChars (n : Nat) : List Char := List.replicate (2 * n) ' '

mutual

/-- Model of `serde_json::to_string_pretty` on a `Value` printed at
indentation depth `ind`. -/
def prettyV (ind : Nat) : Json → List Char
  | .null => "null".data
  | .bool true => "true".data
  | .bool false => "false".data
  | .num n => intChars n
  | .str s => serializeString s
  | .arr [] => [lsqChar, rsqChar]
  | .arr (x :: xs) =>
      [lsqChar, nlChar] ++ indentChars (ind + 1) ++ prettyElems ind (x :: xs)
        ++ [nlChar] ++ indentChars ind ++ [rsqChar]
  | .obj [] => [lbChar, rbChar]
  | .obj (f :: fs) =>
      [lbChar, nlChar] ++ indentChars (ind + 1) ++ prettyFields ind (f :: fs)
        ++ [nlChar] ++ indentChars ind ++ [rbChar]

/-- Pretty printing of the elements of a non-empty array enclosed at depth
`ind`: elements print at depth `ind + 1`, separated by a comma, a newline
and the inner indentation. -/
def prettyElems (ind : Nat) : List Json → List Char
  | [] => []
  | [x] => prettyV (ind + 1) x
  | x :: y :: rest =>
      prettyV (ind + 1) x ++ [',', nlChar] ++ indentChars (ind + 1)
        ++ prettyElems ind (y :: rest)

/-- Pretty printing of the members of a non-empty object enclosed at depth
`ind` (key, colon-space, value). -/
def prettyFields (ind : Nat) : List (String × Json) → List Char
  | [] => []
  | [(k, v)] => serializeString k ++ ':' :: ' ' :: prettyV (ind + 1) v
  | (k, v) :: m :: rest =>
      serializeString k ++ ':' :: ' ' :: prettyV (ind + 1) v
        ++ [',', nlChar] ++ indentChars (ind + 1) ++ prettyFields ind (m :: rest)

end

/-- `to_string_pretty` at the top level. -/
def jsonPretty (v : Json) : String := String.mk (prettyV 0 v)

/-- Byte-lexicographic strict comparison of strings (the order of Rust's
`Ord for String` and of `BTreeMap<String, _>` keys), decided on the
code-point list, which UTF-8 orders identically. -/
def strLtB (a b : String) : Bool := decide (a.data < b.data)

/-- Strictly increasing key list (the `BTreeMap` storage invariant). -/
def strictSortedKeys : List String → Bool
  | [] => true
  | [_] => true
  | a :: b :: rest => strLtB a b && strictSortedKeys (b :: rest)

mutual

/-- A value is canonical when every object in it keeps its fields strictly
sorted by key.  Every `serde_json::Value` is canonical by construction of its
`BTreeMap`-backed maps; only such values are in the image of the embedding. -/
def canonicalV : Json → Bool
  | .arr xs => canonicalL xs
  | .obj fs => strictSortedKeys (fs.map Prod.fst) && canonicalF fs
  | _ => true

/-- Canonicity of a list of values. -/
def canonicalL : List Json → Bool
  | [] => true
  | x :: rest => canonicalV x && canonicalL rest

/-- Canonicity of the values of an object's fields. -/
def canonicalF : List (String × Json) → Bool
  | [] => true
  | (_, v) :: rest => canonicalV v && canonicalF rest

end

/-- `BTreeMap::insert` on the sorted association list: replaces the value of an
existing key, otherwise inserts at the sorted position. -/
def insertAssoc : List (String × Json) → String → Json → List (String × Json)
  | [], k, v => [(k, v)]
  | (k', v') :: rest, k, v =>
      if k = k' then (k, v) :: rest
      else if strLtB k k' then (k, v) :: (k', v') :: rest
      else (k', v') :: insertAssoc rest k v

/-- JSON insignificant whitespace, exactly the four characters
`serde_json`'s parser skips. -/
def isJsonWs (c : Char) : Bool := c = ' ' || c.toNat = 9 || c.toNat = 10 || c.toNat = 13

/-- Skip insignificant whitespace. -/
def skipWs (s : List Char) : List Char := s.dropWhile isJsonWs

/-- Body of `serde_json`'s string parser, after the opening quote: consumes
characters up to the closing quote, resolving escapes (including `\uXXXX`
with surrogate pairs) and rejecting raw control characters.  The fuel
argument only serves structural termination: every recursive call consumes
at least one character, so the `length + 1` fuel of the `parseStrAux`
wrapper below is never exhausted. -/
def parseStrAuxF : Nat → List Char → List Char → Option (List Char × List Char)
  | 0, _, _ => none
  | fuel + 1, acc, s =>
    match s with
    | [] => none
    | c :: rest =>
      if c = qChar then some (acc.reverse, rest)
      else if c = bsChar then
        match rest with
        | [] => none
        | e :: rest2 =>
          if e = qChar then parseStrAuxF fuel (qChar :: acc) rest2
          else if e = bsChar then parseStrAuxF fuel (bsChar :: acc) rest2
          else if e = '/' then parseStrAuxF fuel ('/' :: acc) rest2
          else if e = 'b' then parseStrAuxF fuel (Char.ofNat 8 :: acc) rest2
          else if e = 'f' then parseStrAuxF fuel (Char.ofNat 12 :: acc) rest2
          else if e = 'n' then parseStrAuxF fuel (Char.ofNat 10 :: acc) rest2
          else if e = 'r' then parseStrAuxF fuel (Char.ofNat 13 :: acc) rest2
          else if e = 't' then parseStrAuxF fuel (Char.ofNat 9 :: acc) rest2
          else if e = 'u' then
            match rest2 with
            | h1 :: h2 :: h3 :: h4 :: rest3 =>
              if isHexChar h1 && isHexChar h2 && isHexChar h3 && isHexChar h4 then
                let n := ((hexVal h1 * 16 + hexVal h2) * 16 + hexVal h3) * 16 + hexVal h4
                if 55296 ≤ n && n ≤ 56319 then
                  match rest3 with
                  | e1 :: e2 :: g1 :: g2 :: g3 :: g4 :: rest4 =>
                    if e1 = bsChar && e2 = 'u' && isHexChar g1 && isHexChar g2
                        && isHexChar g3 && isHexChar g4 then
                      let m := ((hexVal g1 * 16 + hexVal g2) * 16 + hexVal g3) * 16 + hexVal g4
                      if 56320 ≤ m && m ≤ 57343 then
                        parseStrAuxF fuel
                          (Char.ofNat (65536 + (n - 55296) * 1024 + (m - 56320)) :: acc) rest4
                      else none
                    else none
                  | _ => none
                else if 56320 ≤ n && n ≤ 57343 then none
                else parseStrAuxF fuel (Char.ofNat n :: acc) rest3
              else none
            | _ => none
          else none
      else if c.toNat < 32 then none
      else parseStrAuxF fuel (c :: acc) rest

/-- The string-body parser at its natural fuel. -/
def parseStrAux (acc s : List Char) : Option (List Char × List Char) :=
  parseStrAuxF (s.length + 1) acc s

/-- Accumulate the value of a run of decimal digits, left to right. -/
def parseDigitsAux (acc : Nat) : List Char → (Nat × List Char)
  | [] => (acc, [])
  | c :: rest =>
    if isDigitChar c then parseDigitsAux (10 * acc + digitVal c) rest else (acc, c :: rest)

/-- After an integer literal, `serde_json` would continue into a float on
`.`, `e`, `E`; the model (integers only) rejects there. -/
def numTailOk : List Char → Bool
  | [] => true
  | c :: _ => !(c = '.' || c = 'e' || c = 'E')

/-- Model of `serde_json`'s number parsing, restricted to integers: optional
minus sign, digits with the leading-zero restriction, no fraction/exponent. -/
def parseNumber (s : List Char) : Option (Int × List Char) :=
  match s with
  | [] => none
  | c0 :: rest0 =>
    let neg := c0 = '-'
    let s1 := if neg then rest0 else c0 :: rest0
    match s1 with
    | [] => none
    | c :: rest =>
      if !isDigitChar c then none
      else
        let pr := if c = '0' then ((0 : Nat), rest) else parseDigitsAux 0 (c :: rest)
        if c = '0' && (match rest with | d :: _ => isDigitChar d | [] => false) then none
        else if !numTailOk pr.2 then none
        else some (if neg then -(pr.1 : Int) else (pr.1 : Int), pr.2)

mutual

/-- Model of `serde_json`'s recursive-descent value parser.  `fuel` only
serves termination: every recursive call consumes at least one character, so
the top-level fuel `length + 1` is never exhausted.  `d` models the
deserializer's `remaining_depth` (`check_recursion!`): every `{` or `[`
decrements it before parsing the container's contents, and reaching zero is
`RecursionLimitExceeded` (here `none`); scalars are not checked. -/
def parseValue (fuel : Nat) (d : Nat) (s : List Char) : Option (Json × List Char) :=
  match fuel with
  | 0 => none
  | fuel + 1 =>
    match skipWs s with
    | [] => none
    | c :: rest =>
      if c = qChar then (parseStrAux [] rest).map (fun p => (Json.str (String.mk p.1), p.2))
      else if c = lbChar then
        if d ≤ 1 then none
        else
          match skipWs rest with
          | c2 :: rest2 =>
            if c2 = rbChar then some (Json.obj [], rest2)
            else parseMembers fuel (d - 1) (c2 :: rest2) []
          | [] => none
      else if c = lsqChar then
        if d ≤ 1 then none
        else
          match skipWs rest with
          | c2 :: rest2 =>
            if c2 = rsqChar then some (Json.arr [], rest2)
            else parseElems fuel (d - 1) (c2 :: rest2) []
          | [] => none
      else if c = 'n' then
        match rest with
        | 'u' :: 'l' :: 'l' :: r => some (Json.null, r)
        | _ => none
      else if c = 't' then
        match rest with
        | 'r' :: 'u' :: 'e' :: r => some (Json.bool true, r)
        | _ => none
      else if c = 'f' then
        match rest with
        | 'a' :: 'l' :: 's' :: 'e' :: r => some (Json.bool false, r)
        | _ => none
      else if c = '-' || isDigitChar c then
        (parseNumber (c :: rest)).map (fun p => (Json.num p.1, p.2))
      else none

/-- Members of a non-empty object; `acc` holds the members read so far,
inserted `BTreeMap`-style (so duplicate keys resolve to the last value).
`d` is the remaining depth after the enclosing `{` was counted. -/
def parseMembers (fuel : Nat) (d : Nat) (s : List Char) (acc : List (String × Json)) :
    Option (Json × List Char) :=
  match fuel with
  | 0 => none
  | fuel + 1 =>
    match skipWs s with
    | c :: rest =>
      if c = qChar then
        match parseStrAux [] rest with
        | some (key, r1) =>
          match skipWs r1 with
          | c2 :: r2 =>
            if c2 = ':' then
              match parseValue fuel d r2 with
              | some (v, r3) =>
                let acc2 := insertAssoc acc (String.mk key) v
                match skipWs r3 with
                | c3 :: r4 =>
                  if c3 = ',' then parseMembers fuel d r4 acc2
                  else if c3 = rbChar then some (Json.obj acc2, r4)
                  else none
                | [] => none
              | none => none
            else none
          | [] => none
        | none => none
      else none
    | [] => none

/-- Elements of a non-empty array; `acc` holds the elements read so far,
reversed.  `d` is the remaining depth after the enclosing `[` was counted. -/
def parseElems (fuel : Nat) (d : Nat) (s : List Char) (acc : List Json) :
    Option (Json × List Char) :=
  match fuel with
  | 0 => none
  | fuel + 1 =>
    match parseValue fuel d s with
    | some (v, r) =>
      match skipWs r with
      | c :: r2 =>
        if c = ',' then parseElems fuel d r2 (v :: acc)
        else if c = rsqChar then some (Json.arr (v :: acc).reverse, r2)
        else none
      | [] => none
    | none => none

end

/-- Model of `serde_json::from_str::<Value>`: parse one value with the
deserializer's default `remaining_depth` of 128, then require only
whitespace to the end of input. -/
def jsonParseL (s : List Char) : Option Json :=
  match parseValue (s.length + 1) 128 s with
  | some (v, rest) => if (skipWs rest).isEmpty then some v else none
  | none => none

/-- First index at which `pat` occurs in the list, as Rust's `str::find` with
a string pattern (byte indices and char-list indices agree at the boundaries
the code uses). -/
def findSub (pat : List Char) : List Char → Option Nat
  | [] => if pat.isEmpty then some 0 else none
  | c :: rest =>
    if pat.isPrefixOf (c :: rest) then some 0 else (findSub pat rest).map (· + 1)

/-- ASCII whitespace trimmed by Rust's `str::trim` and matched by the regex
class `\s` (the Unicode-only whitespace code points, which the witnesses
below never use, are omitted from the model). -/
def isRustWs (c : Char) : Bool :=
  c = ' ' || c.toNat = 9 || c.toNat = 10 || c.toNat = 13 || c.toNat = 11 || c.toNat = 12

/-- Rust's `str::trim` on a char list. -/
def rustTrim (s : List Char) : List Char :=
  ((s.dropWhile isRustWs).reverse.dropWhile isRustWs).reverse

/-- Rust's `str::replace`: replace every non-overlapping occurrence of `pat`,
left to right.  `fuel` only serves termination (each step consumes at least
one character, so `length + 1` is never exhausted). -/
def replaceSubAux (pat rep : List Char) : Nat → List Char → List Char
  | 0, s => s
  | _ + 1, [] => []
  | fuel + 1, c :: rest =>
    if pat.isPrefixOf (c :: rest) && !pat.isEmpty then
      rep ++ replaceSubAux pat rep fuel ((c :: rest).drop pat.length)
    else c :: replaceSubAux pat rep fuel rest

/-- Rust's `str::replace` at top level. -/
def replaceSub (pat rep s : List Char) : List Char :=
  replaceSubAux pat rep (s.length + 1) s

/-- The literal stray sequence the code replaces:
`.replace("<0xC2><0xA0>", " ")` in `AlpacaActions::parse` replaces this
twelve-character ASCII text (not an actual non-breaking-space byte pair). -/
def nbspPat : List Char := "<0xC2><0xA0>".data

/-- Normalization applied to each captured span before JSON parsing. -/
def replaceNbsp (s : List Char) : List Char := replaceSub nbspPat " ".data s

/-- Start marker of a JSON fence, `regex` pattern prefix
(three backticks followed by `json`). -/
def jsonFenceStart : List Char := "\x60\x60\x60json".data

/-- Generic closing fence (three backticks). -/
def fenceEnd : List Char := "\x60\x60\x60".data

/-- The capture loop of the regex in `AlpacaActions::parse`
(pattern: three backticks, `json`, lazy body, three backticks, with `\s*`
stripping around the capture): find the next start marker, capture up to the
first closing fence with surrounding whitespace trimmed, continue past the
closing fence.  `fuel` only serves termination (each iteration consumes the
start marker, so `length + 1` is never exhausted). -/
def extractJsonSpansAux : Nat → List Char → List (List Char)
  | 0, _ => []
  | fuel + 1, s =>
    match findSub jsonFenceStart s with
    | none => []
    | some i =>
      let afterStart := s.drop (i + jsonFenceStart.length)
      match findSub fenceEnd afterStart with
      | none => []
      | some j =>
        rustTrim (afterStart.take j) ::
          extractJsonSpansAux fuel (afterStart.drop (j + fenceEnd.length))

/-- All captured JSON-fence spans of a text, in order of appearance. -/
def extractJsonSpans (s : List Char) : List (List Char) :=
  extractJsonSpansAux (s.length + 1) s

/-- Start marker searched by `AlapacaToolDispatch::find_tool_calls`. -/
def toolCallFenceStart : List Char := "\x60\x60\x60tool_call".data

/-- The scanning loop of `AlapacaToolDispatch::find_tool_calls`: find the
start marker, take the trimmed text up to the next closing fence, continue
strictly past the closing fence; an unterminated span ends the scan.  `fuel`
only serves termination, as above. -/
def findToolCallsAux : Nat → List Char → List (List Char)
  | 0, _ => []
  | fuel + 1, s =>
    match findSub toolCallFenceStart s with
    | none => []
    | some i =>
      let contentStart := s.drop (i + toolCallFenceStart.length)
      match findSub fenceEnd contentStart with
      | none => []
      | some j =>
        rustTrim (contentStart.take j) ::
          findToolCallsAux fuel (contentStart.drop (j + fenceEnd.length))

/-- `AlapacaToolDispatch::find_tool_calls`. -/
def find_tool_calls (message : String) : List (List Char) :=
  findToolCallsAux (message.data.length + 1) message.data

/-- `value["key"]` on a shared reference (`serde_json`'s `Index` impl):
yields the field's value on an object that has the key, `Null` otherwise. -/
def Json.index (v : Json) (key : String) : Json :=
  match v with
  | .obj fs => match fs.find? (fun p => p.1 == key) with | some p => p.2 | none => .null
  | _ => .null

/-- `Value::as_str`. -/
def Json.asStr : Json → Option String
  | .str s => some s
  | _ => none

/-- `Value::get` with a string key. -/
def Json.fieldGet (v : Json) (key : String) : Option Json :=
  match v with
  | .obj fs => (fs.find? (fun p => p.1 == key)).map Prod.snd
  | _ => none

/-- `value["key"] = val` (`serde_json`'s `IndexMut`): `Null` is vivified to a
one-field object, an object gets a `BTreeMap` insert.  On any other value the
Rust code panics; that case is unreachable in the builder flows modelled here
and is mapped to the identity. -/
def Json.indexSet (v : Json) (key : String) (val : Json) : Json :=
  match v with
  | .null => .obj [(key, val)]
  | .obj fs => .obj (insertAssoc fs key val)
  | other => other

/-- A capability handler (`AlpacaActionTrait`): name, description, and the
invoke operation.  The registry context passed to `invoke` is modelled as the
(name, description) association of the registry — the data the shipped
capabilities read from it (`action_names`, `describe_action`); capability
bodies that perform filesystem I/O are outside the engine per the spec and
are not modelled. -/
structure AlpacaAction where
  name : String
  description : String
  invoke : Json → List (String × String) → String

/-- The capability registry (`AlpacaActions`): `HashMap<String, Box<dyn ...>>`
modelled as a key-unique association list; all reads either look a key up or
sort the keys, so the list order is unobservable, as a hash map's order is. -/
structure AlpacaActions where
  actions : List (String × AlpacaAction)

/-- The header wrapper: `string_action_response` in src/action.rs. -/
def string_action_response (action response : String) : String :=
  "\n# \x60" ++ action ++ "\x60 Action Response\n\n" ++ response ++ "\n"

/-- `AlpacaActions::blockify`: fenced pretty-printed JSON block. -/
def AlpacaActions.blockify (object : Json) : String :=
  "\x60\x60\x60json\n" ++ String.mk (prettyV 0 object) ++ "\n\x60\x60\x60\n"

/-- `AlpacaActions::response_action_not_found`. -/
def AlpacaActions.response_action_not_found (_from action : String) : String :=
  AlpacaActions.blockify (Json.obj [("error", Json.str
    ("Action \x27" ++ action ++
      "\x27 not found. Use the action \x27list_actions\x27 to list all available actions."))])

/-- `AlpacaActions::add_action`: insert keyed by the action's name,
replacing an existing entry with that key (`HashMap::insert`). -/
def AlpacaActions.add_action (r : AlpacaActions) (action : AlpacaAction) : AlpacaActions :=
  ⟨r.actions.filter (fun p => p.1 != action.name) ++ [(action.name, action)]⟩

/-- `self.actions.get(name)`. -/
def AlpacaActions.getAction (r : AlpacaActions) (name : String) : Option AlpacaAction :=
  (r.actions.find? (fun p => p.1 == name)).map Prod.snd

/-- `AlpacaActions::action_names`: collect the keys and sort them.  Rust's
stable `sort` on the (unique) keys and any correct sort agree. -/
def AlpacaActions.action_names (r : AlpacaActions) : List String :=
  List.insertionSort (· ≤ ·) (r.actions.map Prod.fst)

/-- `AlpacaActions::action_list`. -/
def AlpacaActions.action_list (r : AlpacaActions) : String :=
  "## Available Actions\n\n" ++ "Here is the list of available actions:" ++ "\n" ++
    AlpacaActions.blockify (Json.obj [("actions", Json.arr (r.action_names.map Json.str))])

/-- The registry context a capability's `invoke` receives, as the
(name, description) association (see `AlpacaAction`). -/
def registryView (r : AlpacaActions) : List (String × String) :=
  r.actions.map (fun p => (p.1, p.2.description))

/-- `AlpacaActions::describe_action`. -/
def AlpacaActions.describe_action (r : AlpacaActions) (action_name : String) : String :=
  match r.getAction action_name with
  | some action => action.description
  | none => AlpacaActions.response_action_not_found "describe_action" action_name

/-- The per-candidate closure inside `AlpacaActions::invoke`'s `filter_map`:
`none` when the candidate has no string-valued `action` field; otherwise the
header-wrapped capability response, or the header-wrapped `## Error` body
(with the rendered action list as remediation hint) when the name is not
registered. -/
def AlpacaActions.blockResponse (r : AlpacaActions) (block : Json) : Option String :=
  ((block.index "action").asStr).map fun name =>
    match r.getAction name with
    | some action => string_action_response name (action.invoke block (registryView r))
    | none =>
      string_action_response name
        ("## Error\n\nAction \x27" ++ name ++ "\x27 not found.\n\n" ++ r.action_list)

/-- The fold inside `AlpacaActions::remove_duplicates`: `seen` is the
`HashSet<String>` of serializations already kept. -/
def removeDupsAux (seen : List String) : List Json → List Json
  | [] => []
  | v :: rest =>
    let key := jsonKey v
    if key ∈ seen then removeDupsAux seen rest
    else v :: removeDupsAux (key :: seen) rest

/-- `AlpacaActions::remove_duplicates` (the `&self` receiver is unused in the
source and kept for shape). -/
def AlpacaActions.remove_duplicates (_r : AlpacaActions) (values : List Json) : List Json :=
  removeDupsAux [] values

/-- The successfully parsed fenced spans of a message, in order of
appearance: each captured span is normalized (`replace("<0xC2><0xA0>", " ")`)
then JSON-parsed, and spans that fail to parse are dropped. -/
def spansParsed (message : String) : List Json :=
  (extractJsonSpans message.data).filterMap (fun s => jsonParseL (replaceNbsp s))

/-- `AlpacaActions::parse`: fenced spans, whole-message fallback when no span
parsed, then deduplication. -/
def AlpacaActions.parse (r : AlpacaActions) (message : String) : List Json :=
  let results := spansParsed message
  let results := if results.isEmpty then (jsonParseL message.data).toList else results
  r.remove_duplicates results

/-- `AlpacaActions::invoke`. -/
def AlpacaActions.invoke (r : AlpacaActions) (message : String) : Option String :=
  let json_blocks := r.parse message
  let responses := json_blocks.filterMap r.blockResponse
  if responses.isEmpty then none
  else some (String.intercalate "\n" responses)

/-- `AlpacaToolCall`: a wrapper around one JSON value. -/
structure AlpacaToolCall where
  object : Json

/-- `AlpacaToolCall::new`: wraps `Value::default()`, i.e. `Null`. -/
def AlpacaToolCall.new : AlpacaToolCall := ⟨Json.null⟩

/-- `AlpacaToolCall::from_str` (`Err(())` becomes `none`). -/
def AlpacaToolCall.from_str (json : String) : Option AlpacaToolCall :=
  (jsonParseL json.data).map (fun v => ⟨v⟩)

/-- `AlpacaToolCall::to_string_pretty`. -/
def AlpacaToolCall.to_string_pretty (tc : AlpacaToolCall) : String :=
  String.mk (prettyV 0 tc.object)

/-- `AlpacaToolCall::function`. -/
def AlpacaToolCall.function (tc : AlpacaToolCall) : Option String :=
  (tc.object.index "function").asStr

/-- `AlpacaToolCall::set_function`. -/
def AlpacaToolCall.set_function (tc : AlpacaToolCall) (function : String) : AlpacaToolCall :=
  ⟨tc.object.indexSet "function" (Json.str function)⟩

/-- `AlpacaToolCall::argument`. -/
def AlpacaToolCall.argument (tc : AlpacaToolCall) (arg : String) : Option Json :=
  (tc.object.fieldGet "arguments").bind (fun args => args.fieldGet arg)

/-- `AlpacaToolCall::add_argument`: vivify the `arguments` object if absent,
then insert the key. -/
def AlpacaToolCall.add_argument (tc : AlpacaToolCall) (key : String) (value : Json) :
    AlpacaToolCall :=
  let o := if (tc.object.fieldGet "arguments").isSome then tc.object
           else tc.object.indexSet "arguments" (Json.obj [])
  ⟨o.indexSet "arguments" ((o.index "arguments").indexSet key value)⟩

/-- `AlapacaToolDispatch` (struct name as in the source). -/
structure AlapacaToolDispatch where
  tool_calls : List AlpacaToolCall

/-- `AlapacaToolDispatch::create_tool_calls`: parse each found span, dropping
failures. -/
def create_tool_calls (message : String) : List AlpacaToolCall :=
  (find_tool_calls message).filterMap (fun t => AlpacaToolCall.from_str (String.mk t))

/-- `AlapacaToolDispatch::new`. -/
def AlapacaToolDispatch.new (message : String) : AlapacaToolDispatch :=
  ⟨create_tool_calls message⟩

/-- `DESCRIPTION` of `AlpacaActionList` (src/action_list.rs). -/
def listActionsDescription : String :=
  "\nThe \x27list_actions\x27 action responds with a list of all of the available actions.\n\nHere is an example of how to invoke it:\n\x60\x60\x60json\n\x7b\n    \x22action\x22: \x22list_actions\x22\n\x7d\n\x60\x60\x60\n"

/-- `DESCRIPTION` of `AlpacaActionDescribe` (src/action_describe.rs). -/
def describeActionDescription : String :=
  "\n# \x60describe_action\x60\n\nThe \x27describe_action\x27 action provides a detailed description of the specified action,\nincluding its parameters and usage examples. Here is an example of\nhow to invoke it:\n\n\x60\x60\x60json\n\x7b\n    \x22action\x22: \x22describe_action\x22,\n    \x22action_name\x22: \x22list_actions\x22\n\x7d\n\x60\x60\x60\n"

/-- `DESCRIPTION` of `AlpacaActionReadDirectory` (src/action_read_directory.rs). -/
def readDirectoryDescription : String :=
  "\nThe \x27read_directory\x27 action provides the names of the files and subdirectories\nin the current working directory.\n\nHere is an example of how to invoke it:\n\x60\x60\x60json\n\x7b\n    \x22action\x22: \x22read_directory\x22,\n\x7d\n\x60\x60\x60\n"

/-- `DESCRIPTION` of `AlpacaActionReadFile` (src/action_read_file.rs). -/
def readFileDescription : String :=
  "\n# \x60read_file\x60\n\nThe \x27read_file\x27 action outputs the contents of the specified file. Only files\nin the current directory can be read.  Here is an example of how to invoke it:\n\n\x60\x60\x60json\n\x7b\n    \x22action\x22: \x22read_file\x22,\n    \x22file_name\x22: \x22example.txt\x22\n\x7d\n\x60\x60\x60\n"

/-- `DESCRIPTION` of `AlpacaActionRegex` (src/action_regex.rs). -/
def regexDescription : String :=
  "\n# \x60regex\x60\n\nThe \x27regex\x27 action allows you to perform regular expression operations on text.\nYou can search for patterns in text and extract matches.\n\nHere is an example of how to invoke it with a single string:\n\x60\x60\x60json\n\x7b\n    \x22action\x22: \x22regex\x22,\n    \x22pattern\x22: \x22\\\\d+\x22,\n    \x22input\x22: \x22The year is 2025 and the month is 4.\x22\n\x7d\n\x60\x60\x60\n\nYou can also provide an array of strings as the \x27input\x27 parameter:\n\x60\x60\x60json\n\x7b\n    \x22action\x22: \x22regex\x22,\n    \x22pattern\x22: \x22\\\\d+\x22,\n    \x22input\x22: [\n        \x22The year is 2025.\x22,\n        \x22The month is 4.\x22\n    ]\n\x7d\n\x60\x60\x60\n\nThis will return all matches of the pattern in the provided text(s).\n"

/-- `AlpacaActions::describe_action` as reachable from a capability's
registry context (the (name, description) association): the same lookup and
the same not-found rendering. -/
def describeFromView (view : List (String × String)) (action_name : String) : String :=
  match view.find? (fun p => p.1 == action_name) with
  | some p => p.2
  | none => AlpacaActions.response_action_not_found "describe_action" action_name

/-- The `list_actions` capability (`AlpacaActionList`). -/
def alpacaActionList : AlpacaAction :=
  { name := "list_actions"
    description := listActionsDescription
    invoke := fun _object view =>
      let action_names := List.insertionSort (· ≤ ·) (view.map Prod.fst)
      "## Success\n\nHere is the list of available actions:\n" ++
        AlpacaActions.blockify
          (Json.obj [("available_actions", Json.arr (action_names.map Json.str))]) ++ "\n" }

/-- The `describe_action` capability (`AlpacaActionDescribe`). -/
def alpacaActionDescribe : AlpacaAction :=
  { name := "describe_action"
    description := describeActionDescription
    invoke := fun object view =>
      match (object.index "action_name").asStr with
      | some name => describeFromView view name
      | none =>
        AlpacaActions.blockify (Json.obj [("error", Json.str
          ("Request is missing the \x27action_name\x27 field.\n" ++
            describeActionDescription ++ "\n"))]) }

/-- The empty registry. -/
def reg0 : AlpacaActions := ⟨[]⟩

/-- A registry with the two registry-reading capabilities registered
(the filesystem capabilities' bodies are external I/O and take no part in the
claims below). -/
def regLD : AlpacaActions :=
  (reg0.add_action alpacaActionList).add_action alpacaActionDescribe

/-- A registry built by a sequence of registrations starting from the empty
registry. -/
def fromAdds (adds : List AlpacaAction) : AlpacaActions :=
  adds.foldl AlpacaActions.add_action reg0

/-- Substring occurrence test (`str::contains`-style), decidable. -/
def containsB (pat s : String) : Bool := (findSub pat.data s.data).isSome

mutual

/-- Fuel sufficient for `parseValue` to parse the printed form of a value:
one unit per parser invocation (see the round-trip lemmas below). -/
def fuelV : Json → Nat
  | .arr xs => 1 + fuelL xs
  | .obj fs => 1 + fuelF fs
  | _ => 1

/-- Fuel for the element loop of a printed array. -/
def fuelL : List Json → Nat
  | [] => 0
  | x :: rest => 1 + fuelV x + fuelL rest

/-- Fuel for the member loop of a printed object. -/
def fuelF : List (String × Json) → Nat
  | [] => 0
  | (_, v) :: rest => 1 + fuelV v + fuelF rest

end

mutual

/-- Container-nesting depth of a value: the number of `remaining_depth`
units `serde_json`'s deserializer spends parsing its printed form (each
array or object costs one; scalars are free). -/
def depthV : Json → Nat
  | .arr xs => 1 + depthL xs
  | .obj fs => 1 + depthF fs
  | _ => 0

/-- Depth of the deepest element of a list of values. -/
def depthL : List Json → Nat
  | [] => 0
  | x :: rest => max (depthV x) (depthL rest)

/-- Depth of the deepest value of an object's fields. -/
def depthF : List (String × Json) → Nat
  | [] => 0
  | (_, v) :: rest => max (depthV v) (depthF rest)

end

/-- A chain of `n` nested singleton arrays around a string: the witness
family for the deserializer's recursion limit. -/
def deepArr : Nat → Json
  | 0 => Json.str "x"
  | n + 1 => Json.arr [deepArr n]

/-- A suffix at which an integer literal may legally stop: empty, or headed
by a character that neither extends the digit run nor (in `serde_json`) would
begin a fraction or exponent. -/
def numBoundary : List Char → Prop
  | [] => True
  | c :: _ => isDigitChar c = false ∧ c ≠ '.' ∧ c ≠ 'e' ∧ c ≠ 'E' 

/-- One step of the incremental `AlpacaToolCall` builder API. -/
inductive ToolOp where
  | setFunction (f : String) : ToolOp
  | addArgument (k : String) (v : Json) : ToolOp

/-- Apply one builder step. -/
def applyOp (tc : AlpacaToolCall) (op : ToolOp) : AlpacaToolCall :=
  match op with
  | .setFunction f => tc.set_function f
  | .addArgument k v => tc.add_argument k v

/-- A builder step is canonical when any value it inserts is canonical
(every `serde_json::Value` is; see `canonicalV`). -/
def opCanonical : ToolOp → Bool
  | .setFunction _ => true
  | .addArgument _ v => canonicalV v

/-! ## Lemmas about deduplication -/

theorem removeDupsAux_sublist (l : List Json) :
    ∀ seen, (removeDupsAux seen l).Sublist l := by
  induction l with
  | nil => intro seen; simp [removeDupsAux]
  | cons v rest ih =>
    intro seen
    simp only [removeDupsAux]
    split
    · exact (ih seen).cons v
    · exact (ih _).cons₂ v

theorem removeDupsAux_not_seen {l : List Json} :
    ∀ {seen : List String} {v : Json}, v ∈ removeDupsAux seen l → jsonKey v ∉ seen := by
  induction l with
  | nil => intro seen v hv; simp [removeDupsAux] at hv
  | cons u rest ih =>
    intro seen v hv
    simp only [removeDupsAux] at hv
    split at hv
    · exact ih hv
    · rcases List.mem_cons.mp hv with rfl | hv2
      · assumption
      · have := ih hv2
        intro hc
        exact this (List.mem_cons_of_mem _ hc)

theorem removeDupsAux_pairwise (l : List Json) :
    ∀ seen, List.Pairwise (fun a b => jsonKey a ≠ jsonKey b) (removeDupsAux seen l) := by
  induction l with
  | nil => intro seen; simp [removeDupsAux]
  | cons v rest ih =>
    intro seen
    simp only [removeDupsAux]
    split
    · exact ih seen
    · refine List.Pairwise.cons ?_ (ih _)
      intro b hb heq
      exact removeDupsAux_not_seen hb (heq ▸ List.mem_cons_self _ _)

theorem removeDupsAux_first_kept :
    ∀ (l1 : List Json) (seen : List String) (v : Json) (l2 : List Json),
      jsonKey v ∉ seen → (∀ u ∈ l1, jsonKey u ≠ jsonKey v) →
      v ∈ removeDupsAux seen (l1 ++ v :: l2) := by
  intro l1
  induction l1 with
  | nil =>
    intro seen v l2 hv _
    simp only [List.nil_append, removeDupsAux]
    rw [if_neg hv]
    exact List.mem_cons_self _ _
  | cons u rest ih =>
    intro seen v l2 hv hl
    simp only [List.cons_append, removeDupsAux]
    split
    · exact ih seen v l2 hv (fun w hw => hl w (List.mem_cons_of_mem _ hw))
    · refine List.mem_cons_of_mem _ (ih _ v l2 ?_ (fun w hw => hl w (List.mem_cons_of_mem _ hw)))
      intro hc
      rcases List.mem_cons.mp hc with heq | hseen
      · exact hl u (List.mem_cons_self _ _) heq.symm
      · exact hv hseen

theorem removeDupsAux_repr :
    ∀ (l : List Json) (seen : List String) (v : Json), v ∈ l →
      jsonKey v ∈ seen ∨ ∃ w ∈ removeDupsAux seen l, jsonKey w = jsonKey v := by
  intro l
  induction l with
  | nil => intro seen v hv; simp at hv
  | cons u rest ih =>
    intro seen v hv
    simp only [removeDupsAux]
    rcases List.mem_cons.mp hv with rfl | hv2
    · by_cases h : jsonKey v ∈ seen
      · left; exact h
      · rw [if_neg h]
        right
        exact ⟨v, List.mem_cons_self _ _, rfl⟩
    · by_cases h : jsonKey u ∈ seen
      · rw [if_pos h]; exact ih seen v hv2
      · rw [if_neg h]
        rcases ih (jsonKey u :: seen) v hv2 with hmem | ⟨w, hw, hkey⟩
        · rcases List.mem_cons.mp hmem with heq | hseen
          · right; exact ⟨u, List.mem_cons_self _ _, heq.symm⟩
          · left; exact hseen
        · right; exact ⟨w, List.mem_cons_of_mem _ hw, hkey⟩

/-! ## Lemmas about substring containment -/

theorem findSub_isSome_of_isPrefixOf (pat : List Char) (l : List Char)
    (hpre : pat.isPrefixOf l = true) : (findSub pat l).isSome = true := by
  cases l with
  | nil =>
    unfold findSub
    have hemp : pat.isEmpty = true := by
      cases pat with
      | nil => rfl
      | cons c cs => simp [List.isPrefixOf] at hpre
    rw [if_pos hemp]
    rfl
  | cons c rest =>
    unfold findSub
    rw [if_pos hpre]
    rfl

theorem findSub_append_isSome (pat : List Char) :
    ∀ (l r : List Char), (findSub pat (l ++ (pat ++ r))).isSome = true := by
  intro l
  induction l with
  | nil =>
    intro r
    rw [List.nil_append]
    exact findSub_isSome_of_isPrefixOf pat _
      (List.isPrefixOf_iff_prefix.mpr (List.prefix_append _ _))
  | cons c rest ih =>
    intro r
    rw [List.cons_append]
    unfold findSub
    split
    · rfl
    · have := ih r
      cases hfs : findSub pat (rest ++ (pat ++ r)) with
      | none => rw [hfs] at this; simp at this
      | some i => rfl

theorem containsB_of_parts (pre mid suf : String) :
    containsB mid (pre ++ mid ++ suf) = true := by
  unfold containsB
  rw [String.data_append, String.data_append, List.append_assoc]
  exact findSub_append_isSome _ _ _

/-! ## Lemmas about per-candidate dispatch -/

theorem blockResponse_none {r : AlpacaActions} {b : Json}
    (h : (b.index "action").asStr = none) : r.blockResponse b = none := by
  simp [AlpacaActions.blockResponse, h]

theorem blockResponse_shape {r : AlpacaActions} {b : Json} {s : String}
    (h : r.blockResponse b = some s) :
    ∃ name body, (b.index "action").asStr = some name ∧ s = string_action_response name body := by
  unfold AlpacaActions.blockResponse at h
  rcases Option.map_eq_some'.mp h with ⟨name, hname, hs⟩
  refine ⟨name, ?_, hname, ?_⟩
  · cases hr : r.getAction name with
    | some action => exact action.invoke b (registryView r)
    | none => exact "## Error\n\nAction \x27" ++ name ++ "\x27 not found.\n\n" ++ r.action_list
  · cases hr : r.getAction name with
    | some action => rw [hr] at hs; exact hs.symm
    | none => rw [hr] at hs; exact hs.symm

theorem length_filterMap_blockResponse (r : AlpacaActions) :
    ∀ blocks : List Json,
      (blocks.filterMap r.blockResponse).length
        = blocks.countP (fun x => ((x.index "action").asStr).isSome) := by
  intro blocks
  induction blocks with
  | nil => rfl
  | cons b rest ih =>
    rw [List.filterMap_cons, List.countP_cons]
    cases h : (b.index "action").asStr with
    | none =>
      rw [blockResponse_none h, ih]
      simp [h]
    | some name =>
      have : ∃ s, r.blockResponse b = some s := by
        unfold AlpacaActions.blockResponse
        rw [h]
        exact ⟨_, rfl⟩
      rcases this with ⟨s, hs⟩
      rw [hs]
      simp [ih, h]

/-! ## Claim theorems -/

/-- C1: whenever no extracted candidate contains a string-valued `action`
discriminator field (in particular whenever nothing parses at all, so the
candidate list is empty), `AlpacaActions::invoke` returns `None` — the
"no invocation" signal — and never a string. -/
theorem C1_invoke_none_without_string_action :
    ∀ (r : AlpacaActions) (message : String),
      (∀ b ∈ r.parse message, (b.index "action").asStr = none) →
      r.invoke message = none := by
  intro r message h
  have hnil : (r.parse message).filterMap r.blockResponse = [] :=
    List.filterMap_eq_nil_iff.mpr (fun b hb => blockResponse_none (h b hb))
  show (let json_blocks := r.parse message;
    let responses := List.filterMap r.blockResponse json_blocks;
    if responses.isEmpty = true then none else some (String.intercalate "\n" responses)) = none
  simp only [hnil]
  rfl

/-- Witness for C1: a message whose single fenced span parses but carries no
`action` field — the hypothesis holds and `invoke` returns `None`. -/
theorem C1_witness :
    (∀ b ∈ regLD.parse "\x60\x60\x60json\n\x7b\x22note\x22: 1\x7d\n\x60\x60\x60",
        (b.index "action").asStr = none)
    ∧ regLD.invoke "\x60\x60\x60json\n\x7b\x22note\x22: 1\x7d\n\x60\x60\x60" = none :=
  ⟨by decide, C1_invoke_none_without_string_action regLD _ (by decide)⟩

/-- C2: deduplication of the ordered candidate list removes every later
candidate that is structurally identical to an earlier one (two `Value`s are
structurally identical exactly when they are equal, object field order being
canonical post-parse; equal values have equal `to_string` keys) and keeps the
first occurrence in its original position: the result is a sublist of the
input, it contains no two candidates with the same serialization (hence no
two equal candidates), every input candidate is represented by a kept
candidate with the same serialization, and a candidate whose serialization
differs from every earlier candidate's is kept.  In particular a text with
two verbatim-identical invocation blocks produces exactly one response. -/
theorem C2_deduplication :
    (∀ (r : AlpacaActions) (l : List Json),
      (r.remove_duplicates l).Sublist l
      ∧ List.Pairwise (fun a b => jsonKey a ≠ jsonKey b) (r.remove_duplicates l)
      ∧ List.Pairwise (fun a b => a ≠ b) (r.remove_duplicates l)
      ∧ (∀ v ∈ l, ∃ w ∈ r.remove_duplicates l, jsonKey w = jsonKey v)
      ∧ (∀ l1 v l2, l = l1 ++ v :: l2 → (∀ u ∈ l1, jsonKey u ≠ jsonKey v) →
          v ∈ r.remove_duplicates l))
    ∧ ((regLD.parse
          ("\x60\x60\x60json\n\x7b\x22action\x22: \x22list_actions\x22\x7d\n\x60\x60\x60\nrepeated:\n\x60\x60\x60json\n\x7b\x22action\x22: \x22list_actions\x22\x7d\n\x60\x60\x60")
        ).filterMap regLD.blockResponse).length = 1 := by
  constructor
  · intro r l
    refine ⟨removeDupsAux_sublist l [], removeDupsAux_pairwise l [], ?_, ?_, ?_⟩
    · exact (removeDupsAux_pairwise l []).imp (fun h heq => h (congrArg jsonKey heq))
    · intro v hv
      rcases removeDupsAux_repr l [] v hv with h | h
      · simp at h
      · exact h
    · intro l1 v l2 hl hkeys
      rw [hl]
      exact removeDupsAux_first_kept l1 [] v l2 (by simp) hkeys
  · rfl

/-- Witness for C2 (the universally quantified part, applied to a concrete
duplicated list): deduplicating `[1, 2, 1]` keeps the list a sublist and keeps
the first occurrence of `1`. -/
theorem C2_witness :
    (reg0.remove_duplicates [Json.num 1, Json.num 2, Json.num 1]).Sublist
        [Json.num 1, Json.num 2, Json.num 1]
    ∧ Json.num 1 ∈ reg0.remove_duplicates [Json.num 1, Json.num 2, Json.num 1] :=
  ⟨(C2_deduplication.1 reg0 [Json.num 1, Json.num 2, Json.num 1]).1,
   (C2_deduplication.1 reg0 [Json.num 1, Json.num 2, Json.num 1]).2.2.2.2
     [] (Json.num 1) [Json.num 2, Json.num 1] rfl (by simp)⟩

/-- C4: when an input yields two or more dispatchable candidates, `invoke`
returns the per-candidate response texts joined on a single `"\n"` separator,
in the left-to-right order the candidates were extracted (the `filterMap`
preserves the order of `parse`, which scans the text left to right); each
per-candidate response text is a header wrap that both starts and ends with a
newline, so consecutive response texts are separated by one blank line in the
rendered output. -/
theorem C4_multiple_invocations_joined :
    ∀ (r : AlpacaActions) (message : String),
      2 ≤ ((r.parse message).filterMap r.blockResponse).length →
      r.invoke message
          = some (String.intercalate "\n" ((r.parse message).filterMap r.blockResponse))
      ∧ ∀ s ∈ (r.parse message).filterMap r.blockResponse,
          ∃ name body, s = string_action_response name body := by
  intro r message h2
  constructor
  · have hne : ((r.parse message).filterMap r.blockResponse).isEmpty = false := by
      rcases hl : (r.parse message).filterMap r.blockResponse with _ | ⟨a, rest⟩
      · rw [hl] at h2; simp at h2
      · rfl
    show (let json_blocks := r.parse message;
      let responses := List.filterMap r.blockResponse json_blocks;
      if responses.isEmpty = true then none else some (String.intercalate "\n" responses))
        = some (String.intercalate "\n" ((r.parse message).filterMap r.blockResponse))
    simp only [hne]
    rfl
  · intro s hs
    rcases List.mem_filterMap.mp hs with ⟨b, _, hresp⟩
    rcases blockResponse_shape hresp with ⟨name, body, _, hshape⟩
    exact ⟨name, body, hshape⟩

/-- Witness for C4: a message with two distinct invocations; `invoke` returns
the two responses joined on `"\n"` in extraction order. -/
theorem C4_witness :
    2 ≤ ((regLD.parse
            ("\x60\x60\x60json\n\x7b\x22action\x22: \x22list_actions\x22\x7d\n\x60\x60\x60\nthen\n\x60\x60\x60json\n\x7b\x22action\x22: \x22frobnicate\x22\x7d\n\x60\x60\x60")
          ).filterMap regLD.blockResponse).length
    ∧ regLD.invoke
          ("\x60\x60\x60json\n\x7b\x22action\x22: \x22list_actions\x22\x7d\n\x60\x60\x60\nthen\n\x60\x60\x60json\n\x7b\x22action\x22: \x22frobnicate\x22\x7d\n\x60\x60\x60")
        = some (String.intercalate "\n"
            ((regLD.parse
                ("\x60\x60\x60json\n\x7b\x22action\x22: \x22list_actions\x22\x7d\n\x60\x60\x60\nthen\n\x60\x60\x60json\n\x7b\x22action\x22: \x22frobnicate\x22\x7d\n\x60\x60\x60")
              ).filterMap regLD.blockResponse)) :=
  ⟨by decide,
   (C4_multiple_invocations_joined regLD
      ("\x60\x60\x60json\n\x7b\x22action\x22: \x22list_actions\x22\x7d\n\x60\x60\x60\nthen\n\x60\x60\x60json\n\x7b\x22action\x22: \x22frobnicate\x22\x7d\n\x60\x60\x60")
      (by decide)).1⟩

/-- C10 (implicit): a candidate whose `action` field is present but not a
JSON string — or absent altogether — is skipped exactly as if absent: its
per-candidate response is `None`, and removing such a candidate from any
position of the candidate list leaves the response list unchanged (so it
produces no text, triggers no capability, no not-found error, and cannot
prevent the `None` outcome when nothing else is dispatchable). -/
theorem C10_nonstring_action_skipped :
    ∀ (r : AlpacaActions) (b : Json) (l1 l2 : List Json),
      (b.index "action").asStr = none →
      r.blockResponse b = none
      ∧ (l1 ++ b :: l2).filterMap r.blockResponse = (l1 ++ l2).filterMap r.blockResponse := by
  intro r b l1 l2 h
  have hb : r.blockResponse b = none := blockResponse_none h
  refine ⟨hb, ?_⟩
  rw [List.filterMap_append, List.filterMap_append, List.filterMap_cons, hb]

/-- Witness for C10: a candidate whose `action` field is the number `3`
(present but not a string), surrounded by two other candidates. -/
theorem C10_witness :
    ((Json.obj [("action", Json.num 3)]).index "action").asStr = none
    ∧ regLD.blockResponse (Json.obj [("action", Json.num 3)]) = none
    ∧ ([Json.obj [("action", Json.str "list_actions")], Json.obj [("action", Json.num 3)],
          Json.null].filterMap regLD.blockResponse
        = [Json.obj [("action", Json.str "list_actions")], Json.null].filterMap
            regLD.blockResponse) :=
  ⟨by decide,
   (C10_nonstring_action_skipped regLD (Json.obj [("action", Json.num 3)])
      [Json.obj [("action", Json.str "list_actions")]] [Json.null] (by decide)).1,
   (C10_nonstring_action_skipped regLD (Json.obj [("action", Json.num 3)])
      [Json.obj [("action", Json.str "list_actions")]] [Json.null] (by decide)).2⟩

/-- C3: a candidate whose string `action` names no registered capability gets
a header-wrapped response for the requested (invalid) name whose body is the
`## Error` rendering containing the literal text `Action '<name>' not found.`
followed by the rendered list of available capabilities (the remediation
hint, headed `## Available Actions`), and the scan is not aborted: every
candidate with a string discriminator — before or after the failing one —
still contributes exactly one response. -/
theorem C3_unknown_action_error_and_continue :
    ∀ (r : AlpacaActions) (blocks : List Json) (b : Json) (name : String),
      b ∈ blocks →
      (b.index "action").asStr = some name →
      r.getAction name = none →
      r.blockResponse b = some (string_action_response name
          ("## Error\n\nAction \x27" ++ name ++ "\x27 not found.\n\n" ++ r.action_list))
      ∧ containsB ("Action \x27" ++ name ++ "\x27 not found.")
          ((r.blockResponse b).getD "") = true
      ∧ containsB "## Available Actions" ((r.blockResponse b).getD "") = true
      ∧ (blocks.filterMap r.blockResponse).length
          = blocks.countP (fun x => ((x.index "action").asStr).isSome) := by
  intro r blocks b name _hmem hname hget
  have hresp : r.blockResponse b = some (string_action_response name
      ("## Error\n\nAction \x27" ++ name ++ "\x27 not found.\n\n" ++ r.action_list)) := by
    unfold AlpacaActions.blockResponse
    rw [hname, Option.map_some', hget]
  have heq : string_action_response name
        ("## Error\n\nAction \x27" ++ name ++ "\x27 not found.\n\n" ++ r.action_list)
      = ("\n# \x60" ++ name ++ "\x60 Action Response\n\n## Error\n\n")
          ++ ("Action \x27" ++ name ++ "\x27 not found.")
          ++ ("\n\n" ++ r.action_list ++ "\n") := by
    apply String.ext
    simp only [string_action_response, String.data_append, List.append_assoc]
    rfl
  have heq3 : string_action_response name
        ("## Error\n\nAction \x27" ++ name ++ "\x27 not found.\n\n" ++ r.action_list)
      = ("\n# \x60" ++ name ++ "\x60 Action Response\n\n## Error\n\nAction \x27" ++ name
            ++ "\x27 not found.\n\n")
          ++ "## Available Actions"
          ++ ("\n\n" ++ "Here is the list of available actions:" ++ "\n"
              ++ AlpacaActions.blockify
                  (Json.obj [("actions", Json.arr (r.action_names.map Json.str))])
              ++ "\n") := by
    apply String.ext
    simp only [string_action_response, AlpacaActions.action_list, String.data_append,
      List.append_assoc]
    rfl
  refine ⟨hresp, ?_, ?_, length_filterMap_blockResponse r blocks⟩
  · rw [hresp, Option.getD_some, heq]
    exact containsB_of_parts _ _ _
  · rw [hresp, Option.getD_some, heq3]
    exact containsB_of_parts _ _ _

/-- Witness for C3: the registry with `list_actions` and `describe_action`
registered, a scan with a valid invocation followed by `frobnicate` (not
registered): the error response carries the literal not-found text and the
`## Available Actions` hint, and both candidates produce a response. -/
theorem C3_witness :
    ((Json.obj [("action", Json.str "frobnicate")]).index "action").asStr = some "frobnicate"
    ∧ regLD.getAction "frobnicate" = none
    ∧ containsB "Action \x27frobnicate\x27 not found."
        ((regLD.blockResponse (Json.obj [("action", Json.str "frobnicate")])).getD "") = true
    ∧ containsB "## Available Actions"
        ((regLD.blockResponse (Json.obj [("action", Json.str "frobnicate")])).getD "") = true
    ∧ ([Json.obj [("action", Json.str "list_actions")],
          Json.obj [("action", Json.str "frobnicate")]].filterMap regLD.blockResponse).length
        = 2 :=
  ⟨by decide, rfl,
   (C3_unknown_action_error_and_continue regLD
      [Json.obj [("action", Json.str "list_actions")], Json.obj [("action", Json.str "frobnicate")]]
      (Json.obj [("action", Json.str "frobnicate")]) "frobnicate"
      (List.mem_cons_of_mem _ (List.mem_cons_self _ _)) (by decide) rfl).2.1,
   (C3_unknown_action_error_and_continue regLD
      [Json.obj [("action", Json.str "list_actions")], Json.obj [("action", Json.str "frobnicate")]]
      (Json.obj [("action", Json.str "frobnicate")]) "frobnicate"
      (List.mem_cons_of_mem _ (List.mem_cons_self _ _)) (by decide) rfl).2.2.1,
   by decide⟩

/-! ## Lemmas about the registry key set -/

theorem mem_keys_add_action {r : AlpacaActions} {a : AlpacaAction} {s : String} :
    s ∈ (r.add_action a).actions.map Prod.fst ↔ s = a.name ∨ s ∈ r.actions.map Prod.fst := by
  simp only [AlpacaActions.add_action, List.map_append, List.mem_append, List.map_cons,
    List.map_nil, List.mem_singleton, List.mem_map, List.mem_filter, bne_iff_ne]
  constructor
  · rintro (⟨p, ⟨hp, _⟩, rfl⟩ | rfl)
    · exact Or.inr ⟨p, hp, rfl⟩
    · exact Or.inl rfl
  · rintro (rfl | ⟨p, hp, rfl⟩)
    · exact Or.inr rfl
    · by_cases h : p.1 = a.name
      · exact Or.inr h
      · exact Or.inl ⟨p, ⟨hp, h⟩, rfl⟩

theorem nodup_keys_add_action {r : AlpacaActions}
    (h : (r.actions.map Prod.fst).Nodup) (a : AlpacaAction) :
    ((r.add_action a).actions.map Prod.fst).Nodup := by
  unfold AlpacaActions.add_action
  rw [List.map_append]
  apply List.Nodup.append
  · exact ((List.filter_sublist _).map Prod.fst).nodup h
  · simp
  · intro s hs hs2
    simp only [List.map_cons, List.map_nil, List.mem_singleton] at hs2
    rcases List.mem_map.mp hs with ⟨p, hp, rfl⟩
    rcases List.mem_filter.mp hp with ⟨_, hne⟩
    rw [hs2] at hne
    simp at hne

theorem nodup_keys_fromAdds :
    ∀ (adds : List AlpacaAction) (r0 : AlpacaActions),
      (r0.actions.map Prod.fst).Nodup →
      ((adds.foldl AlpacaActions.add_action r0).actions.map Prod.fst).Nodup := by
  intro adds
  induction adds with
  | nil => intro r0 h; exact h
  | cons a rest ih =>
    intro r0 h
    exact ih (r0.add_action a) (nodup_keys_add_action h a)

theorem mem_keys_fromAdds :
    ∀ (adds : List AlpacaAction) (r0 : AlpacaActions) (s : String),
      s ∈ ((adds.foldl AlpacaActions.add_action r0).actions.map Prod.fst)
        ↔ s ∈ adds.map AlpacaAction.name ∨ s ∈ r0.actions.map Prod.fst := by
  intro adds
  induction adds with
  | nil => intro r0 s; simp
  | cons a rest ih =>
    intro r0 s
    rw [List.foldl_cons, ih (r0.add_action a) s, List.map_cons, List.mem_cons,
      mem_keys_add_action]
    tauto

/-- C5: for every registry state reachable by a sequence of `add_action`
registrations, `action_names` is sorted (alphabetically, i.e. by the byte
order Rust's `sort` uses on `String`) and holds exactly the registered names;
consequently two registration sequences with the same name set — in
particular any two orderings of the same registrations — yield identical
`action_names`. -/
theorem C5_action_names_sorted_order_independent :
    (∀ adds : List AlpacaAction,
        (fromAdds adds).action_names.Sorted (· ≤ ·)
        ∧ (∀ s, s ∈ (fromAdds adds).action_names ↔ s ∈ adds.map AlpacaAction.name))
    ∧ (∀ adds₁ adds₂ : List AlpacaAction,
        (∀ s, s ∈ adds₁.map AlpacaAction.name ↔ s ∈ adds₂.map AlpacaAction.name) →
        (fromAdds adds₁).action_names = (fromAdds adds₂).action_names) := by
  have hmem : ∀ (adds : List AlpacaAction) (s : String),
      s ∈ (fromAdds adds).action_names ↔ s ∈ adds.map AlpacaAction.name := by
    intro adds s
    unfold AlpacaActions.action_names fromAdds
    rw [(List.perm_insertionSort (· ≤ ·) _).mem_iff, mem_keys_fromAdds adds reg0 s]
    simp [reg0]
  have hnodup : ∀ adds : List AlpacaAction, (fromAdds adds).action_names.Nodup := by
    intro adds
    unfold AlpacaActions.action_names
    exact (List.perm_insertionSort (· ≤ ·) _).nodup_iff.mpr
      (nodup_keys_fromAdds adds reg0 (by simp [reg0]))
  have hsorted : ∀ adds : List AlpacaAction,
      (fromAdds adds).action_names.Sorted (· ≤ ·) := by
    intro adds
    exact List.sorted_insertionSort (· ≤ ·) _
  refine ⟨fun adds => ⟨hsorted adds, hmem adds⟩, ?_⟩
  intro adds₁ adds₂ hset
  apply List.eq_of_perm_of_sorted _ (hsorted adds₁) (hsorted adds₂)
  apply (List.perm_ext_iff_of_nodup (hnodup adds₁) (hnodup adds₂)).mpr
  intro s
  rw [hmem adds₁ s, hmem adds₂ s]
  exact hset s

/-- Witness for C5: registering `describe_action` then `list_actions` yields
names sorted alphabetically, equal to those of the reversed registration
order. -/
theorem C5_witness :
    (fromAdds [alpacaActionDescribe, alpacaActionList]).action_names.Sorted (· ≤ ·)
    ∧ (fromAdds [alpacaActionDescribe, alpacaActionList]).action_names
        = (fromAdds [alpacaActionList, alpacaActionDescribe]).action_names :=
  ⟨(C5_action_names_sorted_order_independent.1 [alpacaActionDescribe, alpacaActionList]).1,
   C5_action_names_sorted_order_independent.2 [alpacaActionDescribe, alpacaActionList]
     [alpacaActionList, alpacaActionDescribe]
     (by intro s; simp [alpacaActionDescribe, alpacaActionList, or_comm])⟩

/-- C6 (amended): `describe_action` returns the stored description of a
registered capability verbatim (non-empty for every capability shipped in the
source); for an unregistered name it returns the standardized not-found error
of `response_action_not_found` — a fenced JSON `{error: ...}` envelope, which
is not the same shape as the dispatch-time not-found response produced by
`invoke` (see the counterexample). -/
theorem C6_describe_action_amended :
    (∀ (r : AlpacaActions) (name : String) (a : AlpacaAction),
        r.getAction name = some a → r.describe_action name = a.description)
    ∧ (∀ (r : AlpacaActions) (name : String),
        r.getAction name = none →
        r.describe_action name
          = AlpacaActions.response_action_not_found "describe_action" name)
    ∧ (listActionsDescription ≠ "" ∧ describeActionDescription ≠ ""
        ∧ readDirectoryDescription ≠ "" ∧ readFileDescription ≠ ""
        ∧ regexDescription ≠ "") := by
  refine ⟨?_, ?_, by decide, by decide, by decide, by decide, by decide⟩
  · intro r name a h
    unfold AlpacaActions.describe_action
    rw [h]
  · intro r name h
    unfold AlpacaActions.describe_action
    rw [h]

/-- Witness for C6 (amended): on the concrete registry, a registered name
returns its description and an unregistered name the fenced JSON envelope. -/
theorem C6_witness :
    regLD.describe_action "list_actions" = alpacaActionList.description
    ∧ regLD.describe_action "frobnicate"
        = AlpacaActions.response_action_not_found "describe_action" "frobnicate" :=
  ⟨C6_describe_action_amended.1 regLD "list_actions" alpacaActionList rfl,
   C6_describe_action_amended.2.1 regLD "frobnicate" rfl⟩

set_option maxRecDepth 4096 in
/-- Counterexample for C6 as stated: for the unregistered name `frobnicate`,
the dispatch-time not-found response is a header-wrapped `## Error` markdown
body, while `describe_action`'s not-found is a fenced JSON `{error: ...}`
block — the two are different strings and different shapes (one contains
`## Error`, the other does not and is a ```json fence). -/
theorem C6_counterexample :
    regLD.blockResponse (Json.obj [("action", Json.str "frobnicate")])
        = some (string_action_response "frobnicate"
            ("## Error\n\nAction \x27frobnicate\x27 not found.\n\n" ++ regLD.action_list))
    ∧ regLD.describe_action "frobnicate"
        ≠ "## Error\n\nAction \x27frobnicate\x27 not found.\n\n" ++ regLD.action_list
    ∧ regLD.describe_action "frobnicate"
        ≠ string_action_response "frobnicate"
            ("## Error\n\nAction \x27frobnicate\x27 not found.\n\n" ++ regLD.action_list)
    ∧ containsB "## Error"
        ((regLD.blockResponse (Json.obj [("action", Json.str "frobnicate")])).getD "") = true
    ∧ containsB "## Error" (regLD.describe_action "frobnicate") = false
    ∧ containsB "\x60\x60\x60json" (regLD.describe_action "frobnicate") = true :=
  ⟨rfl, by decide, by decide, by decide, by decide, by decide⟩

/-- C7 (amended): with no fenced span in the text, the whole input is parsed
as the single candidate (deduplication of a singleton is the identity); the
whole-text fallback is skipped exactly when at least one fenced span parses
successfully — when fenced spans are present but all fail to parse, the
fallback IS attempted (the guard in the source is `results.is_empty()`, not
"no spans found"; see the counterexample). -/
theorem C7_fallback_on_no_parsed_span :
    ∀ (r : AlpacaActions) (message : String),
      (extractJsonSpans message.data = [] →
        r.parse message = r.remove_duplicates (jsonParseL message.data).toList)
      ∧ (spansParsed message ≠ [] →
        r.parse message = r.remove_duplicates (spansParsed message))
      ∧ (spansParsed message = [] →
        r.parse message = r.remove_duplicates (jsonParseL message.data).toList)
      ∧ (∀ v, r.remove_duplicates [v] = [v]) := by
  intro r message
  have hempty : ∀ h : spansParsed message = [],
      r.parse message = r.remove_duplicates (jsonParseL message.data).toList := by
    intro h
    unfold AlpacaActions.parse
    rw [h]
    rfl
  refine ⟨?_, ?_, hempty, ?_⟩
  · intro h
    apply hempty
    unfold spansParsed
    rw [h]
    rfl
  · intro h
    unfold AlpacaActions.parse
    rcases hl : spansParsed message with _ | ⟨a, rest⟩
    · exact absurd hl h
    · rfl
  · intro v
    simp [AlpacaActions.remove_duplicates, removeDupsAux]

/-- Witness for C7 (amended): a plain-prose message has no span and no
whole-text parse (empty candidate list), and a message that is one fenced
invocation parses to that single candidate. -/
theorem C7_witness :
    reg0.parse "no structured data here"
        = reg0.remove_duplicates (jsonParseL ("no structured data here" : String).data).toList
    ∧ reg0.parse "\x60\x60\x60json\n\x7b\x22action\x22: \x22x\x22\x7d\n\x60\x60\x60"
        = reg0.remove_duplicates
            (spansParsed "\x60\x60\x60json\n\x7b\x22action\x22: \x22x\x22\x7d\n\x60\x60\x60") :=
  ⟨(C7_fallback_on_no_parsed_span reg0 "no structured data here").1 (by decide),
   (C7_fallback_on_no_parsed_span reg0
      "\x60\x60\x60json\n\x7b\x22action\x22: \x22x\x22\x7d\n\x60\x60\x60").2.1
     (by
       rw [show spansParsed "\x60\x60\x60json\n\x7b\x22action\x22: \x22x\x22\x7d\n\x60\x60\x60"
           = [Json.obj [("action", Json.str "x")]] from rfl]
       exact List.cons_ne_nil _ _)⟩

/-- Counterexample for C7 as stated: the claim says that when at least one
fenced span is present the whole-text fallback is never attempted, even if
every fenced span fails to parse.  On this input a fenced span IS present,
every span fails to parse, and yet `parse` returns the whole-text candidate —
the fallback was attempted. -/
theorem C7_counterexample :
    extractJsonSpans ("\x7b\x22a\x22: \x22\x60\x60\x60json bad \x60\x60\x60\x22\x7d" : String).data
        ≠ []
    ∧ spansParsed "\x7b\x22a\x22: \x22\x60\x60\x60json bad \x60\x60\x60\x22\x7d" = []
    ∧ reg0.parse "\x7b\x22a\x22: \x22\x60\x60\x60json bad \x60\x60\x60\x22\x7d"
        = [Json.obj [("a", Json.str "\x60\x60\x60json bad \x60\x60\x60")]] :=
  ⟨by decide, rfl, rfl⟩

/-- C8: the Variant B extractor scans for ```tool_call fences left to right
(the cursor advancing strictly past each matched span's closing fence),
parses each span as a ToolCall, drops unparsable spans, and returns the
parsed calls in order of appearance with no deduplication and no dispatch:
in general the extracted objects are exactly the per-span parses in scan
order, and on the claim's input one ToolCall is returned with function `dir`
and an empty arguments mapping; two identical fences yield two calls,
distinct fences keep their textual order, and an unparsable fence is
dropped. -/
theorem C8_tool_call_extraction :
    (∀ message : String,
      ((AlapacaToolDispatch.new message).tool_calls).map AlpacaToolCall.object
        = (find_tool_calls message).filterMap jsonParseL)
    ∧ ((AlapacaToolDispatch.new
          "\x60\x60\x60tool_call\n\x7b\x22function\x22: \x22dir\x22, \x22arguments\x22: \x7b\x7d\x7d\n\x60\x60\x60").tool_calls).map
        AlpacaToolCall.object
        = [Json.obj [("arguments", Json.obj []), ("function", Json.str "dir")]]
    ∧ ((AlapacaToolDispatch.new
          "\x60\x60\x60tool_call\n\x7b\x22function\x22: \x22dir\x22, \x22arguments\x22: \x7b\x7d\x7d\n\x60\x60\x60").tool_calls).map
        AlpacaToolCall.function = [some "dir"]
    ∧ ((AlapacaToolDispatch.new
          "\x60\x60\x60tool_call\n\x7b\x22function\x22: \x22dir\x22, \x22arguments\x22: \x7b\x7d\x7d\n\x60\x60\x60").tool_calls).map
        (fun tc => tc.object.fieldGet "arguments") = [some (Json.obj [])]
    ∧ ((AlapacaToolDispatch.new
          "\x60\x60\x60tool_call\n\x7b\x22function\x22: \x22dir\x22\x7d\n\x60\x60\x60 and again \x60\x60\x60tool_call\n\x7b\x22function\x22: \x22dir\x22\x7d\n\x60\x60\x60").tool_calls).map
        AlpacaToolCall.object
        = [Json.obj [("function", Json.str "dir")], Json.obj [("function", Json.str "dir")]]
    ∧ ((AlapacaToolDispatch.new
          "\x60\x60\x60tool_call\n\x7b\x22function\x22: \x22dir\x22\x7d\n\x60\x60\x60 then \x60\x60\x60tool_call\n\x7b\x22function\x22: \x22cat\x22\x7d\n\x60\x60\x60").tool_calls).map
        AlpacaToolCall.function = [some "dir", some "cat"]
    ∧ ((AlapacaToolDispatch.new
          "\x60\x60\x60tool_call\nnot json\n\x60\x60\x60 then \x60\x60\x60tool_call\n\x7b\x22function\x22: \x22dir\x22\x7d\n\x60\x60\x60").tool_calls).map
        AlpacaToolCall.function = [some "dir"] := by
  refine ⟨?_, by rfl, by rfl, by rfl, by rfl, by rfl, by rfl⟩
  intro message
  unfold AlapacaToolDispatch.new create_tool_calls AlpacaToolCall.from_str
  rw [List.map_filterMap]
  congr 1
  funext t
  cases h : jsonParseL (String.mk t).data with
  | none => simp [h]
  | some v => simp [h]

/-- Witness for C8 (the universally quantified part, applied to the claim's
input). -/
theorem C8_witness :
    ((AlapacaToolDispatch.new
        "\x60\x60\x60tool_call\n\x7b\x22function\x22: \x22dir\x22, \x22arguments\x22: \x7b\x7d\x7d\n\x60\x60\x60").tool_calls).map
      AlpacaToolCall.object
      = (find_tool_calls
          "\x60\x60\x60tool_call\n\x7b\x22function\x22: \x22dir\x22, \x22arguments\x22: \x7b\x7d\x7d\n\x60\x60\x60").filterMap
          jsonParseL :=
  C8_tool_call_extraction.1
    "\x60\x60\x60tool_call\n\x7b\x22function\x22: \x22dir\x22, \x22arguments\x22: \x7b\x7d\x7d\n\x60\x60\x60"

/-! ## Order and canonicity lemmas -/

theorem strLtB_iff {a b : String} : strLtB a b = true ↔ a < b := by
  rw [String.lt_iff_toList_lt]
  exact decide_eq_true_iff

theorem strLtB_irrefl (a : String) : strLtB a a = false := by
  rw [Bool.eq_false_iff]
  intro h
  exact absurd (strLtB_iff.mp h) (lt_irrefl a)

theorem strLtB_asymm {a b : String} (h : strLtB a b = true) : strLtB b a = false := by
  rw [Bool.eq_false_iff]
  intro h2
  exact absurd (lt_trans (strLtB_iff.mp h) (strLtB_iff.mp h2)) (lt_irrefl a)

theorem strLtB_trans {a b c : String} (h1 : strLtB a b = true) (h2 : strLtB b c = true) :
    strLtB a c = true :=
  strLtB_iff.mpr (lt_trans (strLtB_iff.mp h1) (strLtB_iff.mp h2))

theorem strLtB_of_ne_of_not_lt {a b : String} (hne : ¬ a = b) (hlt : ¬ strLtB a b = true) :
    strLtB b a = true := by
  rcases lt_trichotomy a b with h | h | h
  · exact absurd (strLtB_iff.mpr h) hlt
  · exact absurd h hne
  · exact strLtB_iff.mpr h

theorem insertAssoc_append :
    ∀ (acc : List (String × Json)) (k : String) (v : Json),
      (∀ p ∈ acc, strLtB p.1 k = true) → insertAssoc acc k v = acc ++ [(k, v)] := by
  intro acc
  induction acc with
  | nil => intro k v _; rfl
  | cons p rest ih =>
    intro k v h
    obtain ⟨k', v'⟩ := p
    have hk' : strLtB k' k = true := h (k', v') (List.mem_cons_self _ _)
    have hne : ¬ k = k' := by
      intro he
      rw [he] at hk'
      rw [strLtB_irrefl] at hk'
      exact Bool.false_ne_true hk'
    have hnlt : ¬ strLtB k k' = true := by
      rw [strLtB_asymm hk']
      exact Bool.false_ne_true
    simp only [insertAssoc]
    rw [if_neg hne, if_neg hnlt, ih k v (fun q hq => h q (List.mem_cons_of_mem _ hq))]
    rfl

theorem strictSortedKeys_cons_cons {a b : String} {l : List String} :
    strictSortedKeys (a :: b :: l) = true
      ↔ strLtB a b = true ∧ strictSortedKeys (b :: l) = true := by
  simp [strictSortedKeys, Bool.and_eq_true]

theorem strictSorted_lt_of_mem_left :
    ∀ (l : List String) (k : String) (r : List String),
      strictSortedKeys (l ++ k :: r) = true → ∀ a ∈ l, strLtB a k = true := by
  intro l
  induction l with
  | nil => intro k r _ a ha; simp at ha
  | cons b l' ih =>
    intro k r h a ha
    rw [List.cons_append] at h
    cases l' with
    | nil =>
      rw [List.nil_append] at h
      have hb := (strictSortedKeys_cons_cons.mp h).1
      rcases List.mem_singleton.mp ha with rfl
      exact hb
    | cons c l'' =>
      rw [List.cons_append] at h
      have h1 := strictSortedKeys_cons_cons.mp h
      have htail : strictSortedKeys ((c :: l'') ++ k :: r) = true := by
        rw [List.cons_append]
        exact h1.2
      rcases List.mem_cons.mp ha with rfl | ha'
      · exact strLtB_trans h1.1 (ih k r htail c (List.mem_cons_self _ _))
      · exact ih k r htail a ha'

theorem canonicalF_val :
    ∀ (fs : List (String × Json)), canonicalF fs = true → ∀ p ∈ fs, canonicalV p.2 = true := by
  intro fs
  induction fs with
  | nil => intro _ p hp; simp at hp
  | cons q rest ih =>
    intro h p hp
    obtain ⟨k, v⟩ := q
    rw [canonicalF, Bool.and_eq_true] at h
    rcases List.mem_cons.mp hp with rfl | hp'
    · exact h.1
    · exact ih h.2 p hp'

theorem canonicalL_val :
    ∀ (xs : List Json), canonicalL xs = true → ∀ x ∈ xs, canonicalV x = true := by
  intro xs
  induction xs with
  | nil => intro _ x hx; simp at hx
  | cons y rest ih =>
    intro h x hx
    rw [canonicalL, Bool.and_eq_true] at h
    rcases List.mem_cons.mp hx with rfl | hx'
    · exact h.1
    · exact ih h.2 x hx'

theorem mem_keys_insertAssoc :
    ∀ (fs : List (String × Json)) (k : String) (v : Json) (x : String),
      x ∈ (insertAssoc fs k v).map Prod.fst → x = k ∨ x ∈ fs.map Prod.fst := by
  intro fs
  induction fs with
  | nil =>
    intro k v x hx
    simp only [insertAssoc, List.map_cons, List.map_nil, List.mem_singleton] at hx
    exact Or.inl hx
  | cons p rest ih =>
    intro k v x hx
    obtain ⟨k', v'⟩ := p
    simp only [insertAssoc] at hx
    by_cases he : k = k'
    · rw [if_pos he] at hx
      rcases List.mem_cons.mp hx with rfl | hx'
      · exact Or.inl rfl
      · exact Or.inr (List.mem_cons_of_mem _ hx')
    · rw [if_neg he] at hx
      by_cases hlt : strLtB k k' = true
      · rw [if_pos hlt] at hx
        rcases List.mem_cons.mp hx with rfl | hx'
        · exact Or.inl rfl
        · exact Or.inr hx'
      · rw [if_neg hlt] at hx
        rcases List.mem_cons.mp hx with rfl | hx'
        · exact Or.inr (List.mem_cons_self _ _)
        · rcases ih k v x hx' with h | h
          · exact Or.inl h
          · exact Or.inr (List.mem_cons_of_mem _ h)

theorem strictSortedKeys_iff_pairwise :
    ∀ l : List String,
      strictSortedKeys l = true ↔ List.Pairwise (fun a b => strLtB a b = true) l := by
  intro l
  induction l with
  | nil => simp [strictSortedKeys]
  | cons a tail ih =>
    cases tail with
    | nil => simp [strictSortedKeys]
    | cons b rest =>
      rw [strictSortedKeys_cons_cons, ih]
      constructor
      · rintro ⟨hab, hp⟩
        refine List.Pairwise.cons ?_ hp
        intro x hx
        rcases List.mem_cons.mp hx with rfl | hx'
        · exact hab
        · exact strLtB_trans hab (List.rel_of_pairwise_cons hp hx')
      · intro hp
        have h1 := List.pairwise_cons.mp hp
        exact ⟨h1.1 b (List.mem_cons_self _ _), h1.2⟩

theorem insertAssoc_sortedKeys :
    ∀ (fs : List (String × Json)) (k : String) (v : Json),
      strictSortedKeys (fs.map Prod.fst) = true →
      strictSortedKeys ((insertAssoc fs k v).map Prod.fst) = true := by
  intro fs k v h
  rw [strictSortedKeys_iff_pairwise] at h ⊢
  induction fs with
  | nil => simp [insertAssoc]
  | cons p rest ih =>
    obtain ⟨k', v'⟩ := p
    rw [List.map_cons, List.pairwise_cons] at h
    simp only [insertAssoc]
    by_cases he : k = k'
    · rw [if_pos he]
      subst he
      rw [List.map_cons, List.pairwise_cons]
      exact h
    · rw [if_neg he]
      by_cases hlt : strLtB k k' = true
      · rw [if_pos hlt]
        rw [List.map_cons, List.pairwise_cons]
        refine ⟨?_, ?_⟩
        · intro x hx
          rcases List.mem_cons.mp hx with rfl | hx'
          · exact hlt
          · exact strLtB_trans hlt (h.1 x hx')
        · rw [List.map_cons, List.pairwise_cons]
          exact h
      · rw [if_neg hlt]
        have hk'k : strLtB k' k = true := strLtB_of_ne_of_not_lt he hlt
        rw [List.map_cons, List.pairwise_cons]
        refine ⟨?_, ih h.2⟩
        intro x hx
        rcases mem_keys_insertAssoc rest k v x hx with rfl | hx'
        · exact hk'k
        · exact h.1 x hx'

theorem canonicalF_insertAssoc :
    ∀ (fs : List (String × Json)) (k : String) (v : Json),
      canonicalF fs = true → canonicalV v = true → canonicalF (insertAssoc fs k v) = true := by
  intro fs
  induction fs with
  | nil =>
    intro k v _ hv
    simp only [insertAssoc, canonicalF]
    rw [Bool.and_eq_true]
    exact ⟨hv, rfl⟩
  | cons p rest ih =>
    intro k v h hv
    obtain ⟨k', v'⟩ := p
    rw [canonicalF, Bool.and_eq_true] at h
    simp only [insertAssoc]
    by_cases he : k = k'
    · rw [if_pos he, canonicalF, Bool.and_eq_true]
      exact ⟨hv, h.2⟩
    · rw [if_neg he]
      by_cases hlt : strLtB k k' = true
      · rw [if_pos hlt, canonicalF, Bool.and_eq_true]
        refine ⟨hv, ?_⟩
        rw [canonicalF, Bool.and_eq_true]
        exact h
      · rw [if_neg hlt, canonicalF, Bool.and_eq_true]
        exact ⟨h.1, ih k v h.2 hv⟩

theorem canonicalV_obj_iff {fs : List (String × Json)} :
    canonicalV (Json.obj fs) = true
      ↔ strictSortedKeys (fs.map Prod.fst) = true ∧ canonicalF fs = true := by
  rw [canonicalV, Bool.and_eq_true]

theorem canonicalV_indexSet {o : Json} {k : String} {v : Json}
    (ho : canonicalV o = true) (hv : canonicalV v = true) :
    canonicalV (o.indexSet k v) = true := by
  cases o with
  | null =>
    simp only [Json.indexSet]
    rw [canonicalV_obj_iff]
    constructor
    · rfl
    · rw [canonicalF, Bool.and_eq_true]
      exact ⟨hv, rfl⟩
  | obj fs =>
    simp only [Json.indexSet]
    rw [canonicalV_obj_iff] at ho ⊢
    exact ⟨insertAssoc_sortedKeys fs k v ho.1, canonicalF_insertAssoc fs k v ho.2 hv⟩
  | bool b => exact ho
  | num n => exact ho
  | str s => exact ho
  | arr xs => exact ho

theorem canonicalV_index {o : Json} (k : String) (ho : canonicalV o = true) :
    canonicalV (o.index k) = true := by
  cases o with
  | obj fs =>
    simp only [Json.index]
    cases hf : fs.find? (fun p => p.1 == k) with
    | none => rfl
    | some p =>
      rw [canonicalV_obj_iff] at ho
      exact canonicalF_val fs ho.2 p (List.mem_of_find?_eq_some hf)
  | null => rfl
  | bool b => rfl
  | num n => rfl
  | str s => rfl
  | arr xs => rfl

/-! ## Whitespace lemmas -/

theorem skipWs_cons_ws {c : Char} (h : isJsonWs c = true) (s : List Char) :
    skipWs (c :: s) = skipWs s := by
  simp [skipWs, List.dropWhile_cons, h]

theorem skipWs_cons_not_ws {c : Char} (h : isJsonWs c = false) (s : List Char) :
    skipWs (c :: s) = c :: s := by
  simp [skipWs, List.dropWhile_cons, h]

theorem skipWs_replicate_space (m : Nat) :
    ∀ s, skipWs (List.replicate m ' ' ++ s) = skipWs s := by
  induction m with
  | zero => intro s; rfl
  | succ k ih =>
    intro s
    rw [List.replicate_succ, List.cons_append, skipWs_cons_ws (by decide)]
    exact ih s

theorem skipWs_indent (n : Nat) (s : List Char) :
    skipWs (indentChars n ++ s) = skipWs s :=
  skipWs_replicate_space (2 * n) s

theorem skipWs_nl (s : List Char) : skipWs (nlChar :: s) = skipWs s :=
  skipWs_cons_ws (by decide) s

theorem parseValue_eq_of_skipWs {s t : List Char} (h : skipWs s = skipWs t) :
    ∀ fuel d, parseValue fuel d s = parseValue fuel d t := by
  intro fuel d
  cases fuel with
  | zero => rfl
  | succ f => simp only [parseValue, h]

theorem parseMembers_eq_of_skipWs {s t : List Char} (h : skipWs s = skipWs t) :
    ∀ fuel d acc, parseMembers fuel d s acc = parseMembers fuel d t acc := by
  intro fuel d acc
  cases fuel with
  | zero => rfl
  | succ f => simp only [parseMembers, h]

theorem skipWs_skipWs (s : List Char) : skipWs (skipWs s) = skipWs s := by
  induction s with
  | nil => rfl
  | cons c rest ih =>
    cases h : isJsonWs c with
    | true => rw [skipWs_cons_ws h, ih]
    | false => rw [skipWs_cons_not_ws h, skipWs_cons_not_ws h]

/-! ## Decimal digit lemmas -/

theorem digitChr_spec :
    ∀ d, d < 10 →
      isDigitChar (digitChr d) = true ∧ digitVal (digitChr d) = d
        ∧ (digitChr d = '0' ↔ d = 0) := by decide

theorem hexChr_spec : ∀ d, d < 16 → isHexChar (digitChr d) = true ∧ hexVal (digitChr d) = d := by
  decide

theorem natDecAux_congr :
    ∀ n f1 f2, n < f1 → n < f2 → natDecAux f1 n = natDecAux f2 n := by
  intro n
  induction n using Nat.strong_induction_on with
  | _ n ih =>
    intro f1 f2 h1 h2
    cases f1 with
    | zero => omega
    | succ g1 =>
      cases f2 with
      | zero => omega
      | succ g2 =>
        simp only [natDecAux]
        by_cases h : n < 10
        · rw [if_pos h, if_pos h]
        · rw [if_neg h, if_neg h]
          have hdiv : n / 10 < n := Nat.div_lt_self (by omega) (by omega)
          rw [ih (n / 10) hdiv g1 g2 (by omega) (by omega)]

theorem natDec_eq (n : Nat) :
    natDec n = if n < 10 then [digitChr n]
               else natDec (n / 10) ++ [digitChr (n % 10)] := by
  show natDecAux (n + 1) n = _
  simp only [natDecAux]
  by_cases h : n < 10
  · rw [if_pos h, if_pos h]
  · rw [if_neg h, if_neg h]
    have hdiv : n / 10 < n := Nat.div_lt_self (by omega) (by omega)
    rw [natDecAux_congr (n / 10) n (n / 10 + 1) (by omega) (by omega)]
    rfl

theorem natDec_ne_nil (n : Nat) : natDec n ≠ [] := by
  rw [natDec_eq]
  split
  · simp
  · simp

theorem natDec_head :
    ∀ n : Nat, ∃ d t, natDec n = d :: t ∧ isDigitChar d = true ∧ (0 < n → ¬ d = '0') := by
  intro n
  induction n using Nat.strong_induction_on with
  | _ n ih =>
    rw [natDec_eq]
    by_cases h : n < 10
    · rw [if_pos h]
      refine ⟨digitChr n, [], rfl, (digitChr_spec n h).1, ?_⟩
      intro hpos he
      exact absurd ((digitChr_spec n h).2.2.mp he) (by omega)
    · rw [if_neg h]
      have hdiv : n / 10 < n := Nat.div_lt_self (by omega) (by omega)
      rcases ih (n / 10) hdiv with ⟨d, t, hdt, hdig, hnz⟩
      refine ⟨d, t ++ [digitChr (n % 10)], by rw [hdt]; rfl, hdig, ?_⟩
      intro _
      exact hnz (by omega)

theorem parseDigitsAux_boundary {rest : List Char} (h : numBoundary rest) :
    ∀ acc, parseDigitsAux acc rest = (acc, rest) := by
  intro acc
  cases rest with
  | nil => rfl
  | cons c r =>
    obtain ⟨hd, _, _, _⟩ := h
    simp [parseDigitsAux, hd]

theorem parseDigitsAux_natDec :
    ∀ (n : Nat) (acc : Nat) (rest : List Char),
      parseDigitsAux acc (natDec n ++ rest)
        = parseDigitsAux (acc * 10 ^ (natDec n).length + n) rest := by
  intro n
  induction n using Nat.strong_induction_on with
  | _ n ih =>
    intro acc rest
    by_cases h : n < 10
    · rw [natDec_eq, if_pos h]
      simp only [List.singleton_append, parseDigitsAux, (digitChr_spec n h).1, if_true,
        (digitChr_spec n h).2.1, List.nil_append, List.length_singleton, pow_one]
      congr 1
      ring
    · have hdiv : n / 10 < n := Nat.div_lt_self (by omega) (by omega)
      have hlen : (natDec n).length = (natDec (n / 10)).length + 1 := by
        conv_lhs => rw [natDec_eq, if_neg h]
        rw [List.length_append]
        rfl
      conv_lhs => rw [natDec_eq, if_neg h]
      rw [List.append_assoc, ih (n / 10) hdiv acc, List.singleton_append]
      have hmod : n % 10 < 10 := Nat.mod_lt _ (by omega)
      simp only [parseDigitsAux, (digitChr_spec _ hmod).1, if_true, (digitChr_spec _ hmod).2.1]
      rw [hlen]
      congr 1
      have := Nat.div_add_mod n 10
      ring_nf
      omega

theorem digit_not_minus {d : Char} (h : isDigitChar d = true) : ¬ d = '-' := by
  intro he
  rw [he] at h
  exact absurd h (by decide)

theorem digit_not_zero_head {d : Char} (hz : ¬ d = '0') :
    (d = '0') = False := by
  simp [hz]


theorem numTailOk_of_boundary {rest : List Char} (h : numBoundary rest) :
    numTailOk rest = true := by
  cases rest with
  | nil => rfl
  | cons c r =>
    obtain ⟨_, h1, h2, h3⟩ := h
    simp [numTailOk, h1, h2, h3]

theorem parseNumber_natDec (m : Nat) (rest : List Char) (h : numBoundary rest) :
    parseNumber (natDec m ++ rest) = some (((m : Nat) : Int), rest) := by
  by_cases hm : m = 0
  · subst hm
    show parseNumber ('0' :: rest) = some (((0 : Nat) : Int), rest)
    simp only [parseNumber]
    cases rest with
    | nil =>
      simp
      exact ⟨by decide, rfl⟩
    | cons c r =>
      obtain ⟨h0, h1, h2, h3⟩ := h
      simp [numTailOk, h0, h1, h2, h3]
      decide
  · rcases natDec_head m with ⟨d, t, hdt, hdig, hnz⟩
    have hd0 : ¬ d = '0' := hnz (by omega)
    have hdm : ¬ d = '-' := digit_not_minus hdig
    have hpr : parseDigitsAux 0 (d :: (t ++ rest)) = ((m : Nat), rest) := by
      have heq : d :: (t ++ rest) = natDec m ++ rest := by rw [hdt, List.cons_append]
      rw [heq, parseDigitsAux_natDec m 0 rest, Nat.zero_mul, Nat.zero_add,
        parseDigitsAux_boundary h]
    rw [hdt, List.cons_append]
    simp only [parseNumber]
    simp [hdm, hdig, hd0, hpr, numTailOk_of_boundary h]

theorem parseNumber_intChars (n : Int) (rest : List Char) (h : numBoundary rest) :
    parseNumber (intChars n ++ rest) = some (n, rest) := by
  by_cases hneg : n < 0
  · unfold intChars
    rw [if_pos hneg, List.cons_append]
    have hm : 0 < (-n).toNat := by omega
    rcases natDec_head (-n).toNat with ⟨d, t, hdt, hdig, hnz⟩
    have hd0 : ¬ d = '0' := hnz hm
    have hpr : parseDigitsAux 0 (d :: (t ++ rest)) = (((-n).toNat : Nat), rest) := by
      have heq : d :: (t ++ rest) = natDec (-n).toNat ++ rest := by rw [hdt, List.cons_append]
      rw [heq, parseDigitsAux_natDec _ 0 rest, Nat.zero_mul, Nat.zero_add,
        parseDigitsAux_boundary h]
    rw [hdt, List.cons_append]
    simp only [parseNumber]
    simp [hdig, hd0, hpr, numTailOk_of_boundary h]
    omega
  · unfold intChars
    rw [if_neg hneg, parseNumber_natDec n.toNat rest h]
    congr 2
    omega

/-! ## String escape lemmas -/


/-! ## String escape lemmas -/

theorem parseStrAuxF_escapeChar (c : Char) (fuel : Nat) (acc tail : List Char) :
    parseStrAuxF (fuel + 1) acc (escapeChar c ++ tail) = parseStrAuxF fuel (c :: acc) tail := by
  by_cases h1 : c = qChar
  · subst h1; rfl
  · by_cases h2 : c = bsChar
    · subst h2; rfl
    · by_cases h8 : c.toNat < 32
      · obtain ⟨t, rfl, hlt⟩ : ∃ t, Char.ofNat t = c ∧ t < 32 :=
          ⟨c.toNat, Char.ofNat_toNat c, h8⟩
        interval_cases t <;> rfl
      · have he : escapeChar c = [c] := by
          simp only [escapeChar, h1, h2, if_false, ite_false]
          have g3 : ¬ c.toNat = 8 := by omega
          have g4 : ¬ c.toNat = 9 := by omega
          have g5 : ¬ c.toNat = 10 := by omega
          have g6 : ¬ c.toNat = 12 := by omega
          have g7 : ¬ c.toNat = 13 := by omega
          simp [g3, g4, g5, g6, g7, h8]
        rw [he, List.singleton_append]
        simp only [parseStrAuxF]
        rw [if_neg h1, if_neg h2, if_neg h8]

theorem escapeChar_ne_nil (c : Char) : escapeChar c ≠ [] := by
  unfold escapeChar
  split_ifs <;> simp

theorem length_le_flatten_escape :
    ∀ l : List Char, l.length ≤ ((l.map escapeChar).flatten).length := by
  intro l
  induction l with
  | nil => simp
  | cons c cs ih =>
    rw [List.map_cons, List.flatten_cons, List.length_append, List.length_cons]
    have h1 : 1 ≤ (escapeChar c).length := by
      cases he : escapeChar c with
      | nil => exact absurd he (escapeChar_ne_nil c)
      | cons a t => simp
    omega

theorem parseStrAuxF_flatten :
    ∀ (l : List Char) (fuel : Nat), l.length < fuel → ∀ (acc rest : List Char),
      parseStrAuxF fuel acc ((l.map escapeChar).flatten ++ qChar :: rest)
        = some (acc.reverse ++ l, rest) := by
  intro l
  induction l with
  | nil =>
    intro fuel hf acc rest
    cases fuel with
    | zero => omega
    | succ f =>
      rw [List.append_nil]
      rfl
  | cons c cs ih =>
    intro fuel hf acc rest
    cases fuel with
    | zero => simp at hf
    | succ f =>
      rw [List.map_cons, List.flatten_cons, List.append_assoc, parseStrAuxF_escapeChar,
        ih f (by simp at hf; omega)]
      simp

theorem parseStrAux_serializeString (s : String) (rest : List Char) :
    parseStrAux [] ((s.data.map escapeChar).flatten ++ qChar :: rest) = some (s.data, rest) := by
  unfold parseStrAux
  rw [parseStrAuxF_flatten s.data _ ?_ [] rest]
  · rfl
  · rw [List.length_append, List.length_cons]
    have := length_le_flatten_escape s.data
    omega

/-! ## Heads of printed values and fuel bounds -/

theorem char_ne_of_toNat_ne {a b : Char} (h : a.toNat ≠ b.toNat) : ¬ a = b :=
  fun he => h (congrArg Char.toNat he)

theorem isDigitChar_bounds {d : Char} (h : isDigitChar d = true) :
    48 ≤ d.toNat ∧ d.toNat ≤ 57 := by
  simpa [isDigitChar, Bool.and_eq_true, decide_eq_true_eq] using h

theorem isJsonWs_false_of_toNat {d : Char}
    (h : d.toNat ≠ 32 ∧ d.toNat ≠ 9 ∧ d.toNat ≠ 10 ∧ d.toNat ≠ 13) : isJsonWs d = false := by
  have hsp : ¬ d = ' ' := char_ne_of_toNat_ne (by simpa using h.1)
  simp [isJsonWs, hsp, h.2.1, h.2.2.1, h.2.2.2]

theorem digit_head_facts {d : Char} (h : isDigitChar d = true) :
    isJsonWs d = false ∧ ¬ d = rsqChar ∧ ¬ d = qChar ∧ ¬ d = lbChar ∧ ¬ d = lsqChar
      ∧ ¬ d = 'n' ∧ ¬ d = 't' ∧ ¬ d = 'f' := by
  obtain ⟨hlo, hhi⟩ := isDigitChar_bounds h
  refine ⟨isJsonWs_false_of_toNat ⟨by omega, by omega, by omega, by omega⟩,
    char_ne_of_toNat_ne ?_, char_ne_of_toNat_ne ?_, char_ne_of_toNat_ne ?_,
    char_ne_of_toNat_ne ?_, char_ne_of_toNat_ne ?_, char_ne_of_toNat_ne ?_,
    char_ne_of_toNat_ne ?_⟩
  all_goals simp only [show rsqChar.toNat = 93 from rfl, show qChar.toNat = 34 from rfl,
    show lbChar.toNat = 123 from rfl, show lsqChar.toNat = 91 from rfl,
    show ('n' : Char).toNat = 110 from rfl, show ('t' : Char).toNat = 116 from rfl,
    show ('f' : Char).toNat = 102 from rfl]
  all_goals omega

theorem intChars_head :
    ∀ n : Int, ∃ c t, intChars n = c :: t ∧ isJsonWs c = false ∧ ¬ c = rsqChar
      ∧ ¬ c = qChar ∧ ¬ c = lbChar ∧ ¬ c = lsqChar ∧ ¬ c = 'n' ∧ ¬ c = 't' ∧ ¬ c = 'f'
      ∧ (c = '-' ∨ isDigitChar c = true) := by
  intro n
  unfold intChars
  by_cases hneg : n < 0
  · rw [if_pos hneg]
    exact ⟨'-', _, rfl, by decide, by decide, by decide, by decide, by decide,
      by decide, by decide, by decide, Or.inl rfl⟩
  · rw [if_neg hneg]
    rcases natDec_head n.toNat with ⟨d, t, hdt, hdig, _⟩
    obtain ⟨f1, f2, f3, f4, f5, f6, f7, f8⟩ := digit_head_facts hdig
    exact ⟨d, t, hdt, f1, f2, f3, f4, f5, f6, f7, f8, Or.inr hdig⟩

theorem prettyV_head (ind : Nat) (v : Json) :
    ∃ c t, prettyV ind v = c :: t ∧ isJsonWs c = false ∧ ¬ c = rsqChar := by
  cases v with
  | null => exact ⟨'n', _, rfl, by decide, by decide⟩
  | bool b =>
    cases b with
    | true => exact ⟨'t', _, rfl, by decide, by decide⟩
    | false => exact ⟨'f', _, rfl, by decide, by decide⟩
  | num n =>
    rcases intChars_head n with ⟨c, t, hct, h1, h2, _⟩
    exact ⟨c, t, by simp [prettyV, hct], h1, h2⟩
  | str s => exact ⟨qChar, _, rfl, by decide, by decide⟩
  | arr xs =>
    cases xs with
    | nil => exact ⟨lsqChar, _, rfl, by decide, by decide⟩
    | cons x rest => exact ⟨lsqChar, _, rfl, by decide, by decide⟩
  | obj fs =>
    cases fs with
    | nil => exact ⟨lbChar, _, rfl, by decide, by decide⟩
    | cons f rest => exact ⟨lbChar, _, rfl, by decide, by decide⟩

theorem fuel_le_pretty_length :
    ∀ N : Nat,
      (∀ v : Json, sizeOf v ≤ N → ∀ ind, fuelV v ≤ (prettyV ind v).length)
      ∧ (∀ xs : List Json, sizeOf xs ≤ N → xs ≠ [] →
          ∀ ind, fuelL xs ≤ (prettyElems ind xs).length + 1)
      ∧ (∀ fs : List (String × Json), sizeOf fs ≤ N → fs ≠ [] →
          ∀ ind, fuelF fs ≤ (prettyFields ind fs).length + 1) := by
  intro N
  induction N with
  | zero =>
    refine ⟨?_, ?_, ?_⟩
    · intro v hv
      cases v <;> simp_all
    · intro xs hxs hne
      cases xs with
      | nil => exact absurd rfl hne
      | cons x r => simp_all
    · intro fs hfs hne
      cases fs with
      | nil => exact absurd rfl hne
      | cons f r => simp_all
  | succ M ih =>
    obtain ⟨ihV, ihL, ihF⟩ := ih
    refine ⟨?_, ?_, ?_⟩
    · intro v hv ind
      cases v with
      | null => simp [fuelV, prettyV]
      | bool b => cases b <;> simp [fuelV, prettyV]
      | num n =>
        have : (intChars n).length ≥ 1 := by
          unfold intChars
          by_cases hneg : n < 0
          · rw [if_pos hneg]; simp
          · rw [if_neg hneg]
            have := natDec_ne_nil n.toNat
            cases hd : natDec n.toNat with
            | nil => exact absurd hd this
            | cons a t => simp [hd]
        simp only [fuelV, prettyV]
        omega
      | str s => simp [fuelV, prettyV, serializeString]
      | arr xs =>
        cases xs with
        | nil => simp [fuelV, fuelL, prettyV]
        | cons x r =>
          have hsz : sizeOf (x :: r) ≤ M := by
            have : sizeOf (Json.arr (x :: r)) = 1 + sizeOf (x :: r) := by simp
            omega
          have h1 := ihL (x :: r) hsz (List.cons_ne_nil _ _) ind
          simp only [fuelV, prettyV, List.length_append, List.length_cons,
            List.length_nil, indentChars, List.length_replicate]
          omega
      | obj fs =>
        cases fs with
        | nil => simp [fuelV, fuelF, prettyV]
        | cons f r =>
          have hsz : sizeOf (f :: r) ≤ M := by
            have : sizeOf (Json.obj (f :: r)) = 1 + sizeOf (f :: r) := by simp
            omega
          have h1 := ihF (f :: r) hsz (List.cons_ne_nil _ _) ind
          simp only [fuelV, prettyV, List.length_append, List.length_cons,
            List.length_nil, indentChars, List.length_replicate]
          omega
    · intro xs hxs hne ind
      cases xs with
      | nil => exact absurd rfl hne
      | cons x r =>
        have hszx : sizeOf x ≤ M := by
          have : sizeOf (x :: r) = 1 + sizeOf x + sizeOf r := by simp
          have hpos : 0 < sizeOf r := by cases r <;> simp
          omega
        have hx := ihV x hszx (ind + 1)
        cases r with
        | nil =>
          simp only [fuelL, prettyElems]
          omega
        | cons y r2 =>
          have hszr : sizeOf (y :: r2) ≤ M := by
            have : sizeOf (x :: y :: r2) = 1 + sizeOf x + sizeOf (y :: r2) := by simp
            omega
          have hr := ihL (y :: r2) hszr (List.cons_ne_nil _ _) ind
          simp only [fuelL, prettyElems, List.length_append, List.length_cons,
            List.length_nil, indentChars, List.length_replicate]
          simp only [fuelL] at hr
          omega
    · intro fs hfs hne ind
      cases fs with
      | nil => exact absurd rfl hne
      | cons f r =>
        obtain ⟨k, v⟩ := f
        have hszv : sizeOf v ≤ M := by
          have : sizeOf ((k, v) :: r) = 1 + (1 + sizeOf k + sizeOf v) + sizeOf r := by simp
          have hpos : 0 < sizeOf r := by cases r <;> simp
          omega
        have hv := ihV v hszv (ind + 1)
        cases r with
        | nil =>
          simp only [fuelF, prettyFields, List.length_append, List.length_cons]
          omega
        | cons m r2 =>
          have hszr : sizeOf (m :: r2) ≤ M := by
            have : sizeOf ((k, v) :: m :: r2) = 1 + sizeOf (k, v) + sizeOf (m :: r2) := by simp
            have : 0 < sizeOf (k, v) := by
              have : sizeOf (k, v) = 1 + sizeOf k + sizeOf v := by simp
              omega
            omega
          have hr := ihF (m :: r2) hszr (List.cons_ne_nil _ _) ind
          simp only [fuelF, prettyFields, List.length_append, List.length_cons,
            List.length_nil, indentChars, List.length_replicate]
          simp only [fuelF] at hr
          omega

theorem fuelV_pos : ∀ v : Json, 1 ≤ fuelV v := by
  intro v
  cases v <;> simp [fuelV]

theorem numBoundary_nl (X : List Char) : numBoundary (nlChar :: X) :=
  ⟨by decide, by decide, by decide, by decide⟩

theorem numBoundary_comma (X : List Char) : numBoundary (',' :: X) :=
  ⟨by decide, by decide, by decide, by decide⟩

theorem parseElems_eq_of_skipWs {s t : List Char} (h : skipWs s = skipWs t) :
    ∀ fuel d acc, parseElems fuel d s acc = parseElems fuel d t acc := by
  intro fuel d acc
  cases fuel with
  | zero => rfl
  | succ f => simp only [parseElems, parseValue_eq_of_skipWs h]

theorem prettyElems_head (ind : Nat) (x : Json) (xs : List Json) :
    ∃ c t, prettyElems ind (x :: xs) = c :: t ∧ isJsonWs c = false ∧ ¬ c = rsqChar := by
  rcases prettyV_head (ind + 1) x with ⟨c, t, hct, hws, hrsq⟩
  cases xs with
  | nil => exact ⟨c, t, by simp [prettyElems, hct], hws, hrsq⟩
  | cons y r =>
    refine ⟨c, t ++ ([',', nlChar] ++ indentChars (ind + 1) ++ prettyElems ind (y :: r)), ?_,
      hws, hrsq⟩
    simp [prettyElems, hct]

/-! ## Round trip of the pretty printer through the parser -/

@[simp] theorem qChar_def : qChar = '\x22' := rfl

@[simp] theorem bsChar_def : bsChar = '\x5c' := rfl

@[simp] theorem lbChar_def : lbChar = '\x7b' := rfl

@[simp] theorem rbChar_def : rbChar = '\x7d' := rfl

@[simp] theorem lsqChar_def : lsqChar = '\x5b' := rfl

@[simp] theorem rsqChar_def : rsqChar = '\x5d' := rfl

@[simp] theorem nlChar_def : nlChar = '\n' := rfl

theorem String_mk_data (s : String) : String.mk s.data = s := rfl

theorem prettyFields_head (ind : Nat) (k : String) (v : Json) (fs : List (String × Json)) :
    ∃ t, prettyFields ind ((k, v) :: fs) = qChar :: t := by
  cases fs with
  | nil => exact ⟨_, rfl⟩
  | cons m r => exact ⟨_, rfl⟩


/-- Round trip of the pretty printer through the parser: the printed form of a
canonical value parses back to exactly that value, provided the remaining
recursion depth `d` exceeds the value's container nesting.  The three parts
cover the value parser, the array-element loop and the object-member loop;
the proof is by induction on the parser fuel. -/
theorem parse_pretty_main : ∀ F : Nat,
    (∀ v : Json, fuelV v ≤ F → canonicalV v = true → ∀ d, depthV v < d →
        ∀ ind rest, numBoundary rest →
        parseValue F d (prettyV ind v ++ rest) = some (v, rest))
    ∧ (∀ xs : List Json, xs ≠ [] → fuelL xs ≤ F → canonicalL xs = true → ∀ d, depthL xs < d →
        ∀ acc ind rest,
          parseElems F d (prettyElems ind xs ++ (nlChar :: (indentChars ind ++ rsqChar :: rest)))
              acc
            = some (Json.arr (acc.reverse ++ xs), rest))
    ∧ (∀ fs : List (String × Json), fs ≠ [] → fuelF fs ≤ F → canonicalF fs = true →
        ∀ d, depthF fs < d →
        ∀ acc ind rest, strictSortedKeys ((acc ++ fs).map Prod.fst) = true →
          parseMembers F d (prettyFields ind fs ++ (nlChar :: (indentChars ind ++ rbChar :: rest)))
              acc
            = some (Json.obj (acc ++ fs), rest)) := by
  intro F
  induction F with
  | zero =>
    refine ⟨?_, ?_, ?_⟩
    · intro v hfu
      exact absurd hfu (by have := fuelV_pos v; omega)
    · intro xs hne hfu
      cases xs with
      | nil => exact absurd rfl hne
      | cons x r => exact absurd hfu (by simp only [fuelL]; omega)
    · intro fs hne hfu
      cases fs with
      | nil => exact absurd rfl hne
      | cons kv r =>
        obtain ⟨k, v⟩ := kv
        exact absurd hfu (by simp only [fuelF]; omega)
  | succ f ih =>
    obtain ⟨ihV, ihE, ihF⟩ := ih
    refine ⟨?_, ?_, ?_⟩
    · intro v hfu hcan d hd ind rest hnb
      cases v with
      | null =>
        show parseValue (f + 1) d ('n' :: 'u' :: 'l' :: 'l' :: rest) = some (Json.null, rest)
        simp [parseValue, skipWs_cons_not_ws (show isJsonWs 'n' = false from by decide)]
      | bool b =>
        cases b with
        | true =>
          show parseValue (f + 1) d ('t' :: 'r' :: 'u' :: 'e' :: rest)
              = some (Json.bool true, rest)
          simp [parseValue, skipWs_cons_not_ws (show isJsonWs 't' = false from by decide)]
        | false =>
          show parseValue (f + 1) d ('f' :: 'a' :: 'l' :: 's' :: 'e' :: rest)
              = some (Json.bool false, rest)
          simp [parseValue, skipWs_cons_not_ws (show isJsonWs 'f' = false from by decide)]
      | num n =>
        obtain ⟨c, t, hct, hws, _, hq, hlb, hlsq, hn, ht, hf2, hnum⟩ := intChars_head n
        show parseValue (f + 1) d (intChars n ++ rest) = some (Json.num n, rest)
        rw [show intChars n ++ rest = c :: (t ++ rest) from by rw [hct]; rfl]
        simp only [parseValue, skipWs_cons_not_ws hws]
        rw [if_neg hq, if_neg hlb, if_neg hlsq, if_neg hn, if_neg ht, if_neg hf2,
          if_pos (show (decide (c = '-') || isDigitChar c) = true from by
            rcases hnum with h | h <;> simp [h]),
          show c :: (t ++ rest) = intChars n ++ rest from by rw [hct]; rfl,
          parseNumber_intChars n rest hnb]
        rfl
      | str s =>
        show parseValue (f + 1) d
            ((qChar :: ((s.data.map escapeChar).flatten ++ [qChar])) ++ rest)
            = some (Json.str s, rest)
        rw [List.cons_append, List.append_assoc, List.singleton_append]
        simp only [parseValue, skipWs_cons_not_ws (show isJsonWs qChar = false from by decide)]
        rw [if_pos trivial, parseStrAux_serializeString]
        rfl
      | arr xs =>
        have hd2 : ¬ d ≤ 1 := by
          simp only [depthV] at hd
          omega
        cases xs with
        | nil =>
          show parseValue (f + 1) d (lsqChar :: rsqChar :: rest) = some (Json.arr [], rest)
          simp [parseValue, hd2,
            skipWs_cons_not_ws (show isJsonWs '\x5b' = false from by decide),
            skipWs_cons_not_ws (show isJsonWs '\x5d' = false from by decide)]
        | cons x xs' =>
          have hsh : prettyV ind (Json.arr (x :: xs')) ++ rest
              = lsqChar :: nlChar :: (indentChars (ind + 1) ++ (prettyElems ind (x :: xs')
                  ++ (nlChar :: (indentChars ind ++ rsqChar :: rest)))) := by
            simp [prettyV]
          obtain ⟨c, t, hct, hws, hrsq⟩ := prettyElems_head ind x xs'
          have hskip : skipWs (nlChar :: (indentChars (ind + 1) ++ (prettyElems ind (x :: xs')
              ++ (nlChar :: (indentChars ind ++ rsqChar :: rest)))))
              = c :: (t ++ (nlChar :: (indentChars ind ++ rsqChar :: rest))) := by
            rw [skipWs_nl, skipWs_indent, hct, List.cons_append, skipWs_cons_not_ws hws]
          rw [hsh]
          simp only [parseValue,
            skipWs_cons_not_ws (show isJsonWs lsqChar = false from by decide), hskip]
          rw [if_neg (show ¬ lsqChar = qChar from by decide),
            if_neg (show ¬ lsqChar = lbChar from by decide), if_pos trivial, if_neg hd2,
            if_neg hrsq,
            show c :: (t ++ (nlChar :: (indentChars ind ++ rsqChar :: rest)))
                = prettyElems ind (x :: xs') ++ (nlChar :: (indentChars ind ++ rsqChar :: rest))
              from by rw [hct]; rfl,
            ihE (x :: xs') (by simp) (by simp only [fuelV] at hfu; omega)
              (by simpa [canonicalV] using hcan) (d - 1)
              (by simp only [depthV] at hd; omega) [] ind rest]
          simp
      | obj fs =>
        have hd2 : ¬ d ≤ 1 := by
          simp only [depthV] at hd
          omega
        cases fs with
        | nil =>
          show parseValue (f + 1) d (lbChar :: rbChar :: rest) = some (Json.obj [], rest)
          simp [parseValue, hd2,
            skipWs_cons_not_ws (show isJsonWs '\x7b' = false from by decide),
            skipWs_cons_not_ws (show isJsonWs '\x7d' = false from by decide)]
        | cons kv fs' =>
          obtain ⟨k, v⟩ := kv
          have hsh : prettyV ind (Json.obj ((k, v) :: fs')) ++ rest
              = lbChar :: nlChar :: (indentChars (ind + 1) ++ (prettyFields ind ((k, v) :: fs')
                  ++ (nlChar :: (indentChars ind ++ rbChar :: rest)))) := by
            simp [prettyV]
          obtain ⟨t, hft⟩ := prettyFields_head ind k v fs'
          have hskip : skipWs (nlChar :: (indentChars (ind + 1)
              ++ (prettyFields ind ((k, v) :: fs')
                  ++ (nlChar :: (indentChars ind ++ rbChar :: rest)))))
              = qChar :: (t ++ (nlChar :: (indentChars ind ++ rbChar :: rest))) := by
            rw [skipWs_nl, skipWs_indent, hft, List.cons_append,
              skipWs_cons_not_ws (show isJsonWs qChar = false from by decide)]
          rw [hsh]
          simp only [parseValue,
            skipWs_cons_not_ws (show isJsonWs lbChar = false from by decide), hskip]
          rw [if_neg (show ¬ lbChar = qChar from by decide), if_pos trivial, if_neg hd2,
            if_neg (show ¬ qChar = rbChar from by decide),
            show qChar :: (t ++ (nlChar :: (indentChars ind ++ rbChar :: rest)))
                = prettyFields ind ((k, v) :: fs')
                    ++ (nlChar :: (indentChars ind ++ rbChar :: rest))
              from by rw [hft]; rfl]
          rw [canonicalV_obj_iff] at hcan
          rw [ihF ((k, v) :: fs') (by simp) (by simp only [fuelV] at hfu; omega) hcan.2
            (d - 1) (by simp only [depthV] at hd; omega) [] ind rest (by simpa using hcan.1)]
          simp
    · intro xs hne hfu hcan d hd acc ind rest
      cases xs with
      | nil => exact absurd rfl hne
      | cons x xs' =>
        have hfx : fuelV x ≤ f := by simp only [fuelL] at hfu; omega
        have hcx : canonicalV x = true := by
          simp only [canonicalL, Bool.and_eq_true] at hcan; exact hcan.1
        have hdx : depthV x < d := by
          simp only [depthL] at hd
          omega
        cases xs' with
        | nil =>
          show parseElems (f + 1) d
              (prettyV (ind + 1) x ++ (nlChar :: (indentChars ind ++ rsqChar :: rest))) acc
              = some (Json.arr (acc.reverse ++ [x]), rest)
          simp only [parseElems,
            ihV x hfx hcx d hdx (ind + 1) (nlChar :: (indentChars ind ++ rsqChar :: rest))
              (numBoundary_nl _),
            skipWs_nl, skipWs_indent,
            skipWs_cons_not_ws (show isJsonWs rsqChar = false from by decide)]
          rw [if_neg (show ¬ rsqChar = ',' from by decide), if_pos trivial]
          simp
        | cons y r =>
          have hfy : fuelL (y :: r) ≤ f := by
            simp only [fuelL] at hfu ⊢
            have := fuelV_pos x
            omega
          have hcy : canonicalL (y :: r) = true := by
            simp only [canonicalL, Bool.and_eq_true] at hcan ⊢
            exact hcan.2
          have hdy : depthL (y :: r) < d := by
            simp only [depthL] at hd ⊢
            omega
          have hsh : prettyElems ind (x :: y :: r)
                ++ (nlChar :: (indentChars ind ++ rsqChar :: rest))
              = prettyV (ind + 1) x ++ (',' :: nlChar :: (indentChars (ind + 1)
                  ++ (prettyElems ind (y :: r)
                      ++ (nlChar :: (indentChars ind ++ rsqChar :: rest))))) := by
            simp [prettyElems]
          rw [hsh]
          simp only [parseElems,
            ihV x hfx hcx d hdx (ind + 1) (',' :: nlChar :: (indentChars (ind + 1)
                ++ (prettyElems ind (y :: r)
                    ++ (nlChar :: (indentChars ind ++ rsqChar :: rest)))))
              (numBoundary_comma _),
            skipWs_cons_not_ws (show isJsonWs ',' = false from by decide)]
          rw [if_pos trivial]
          rw [parseElems_eq_of_skipWs
            (show skipWs (nlChar :: (indentChars (ind + 1) ++ (prettyElems ind (y :: r)
                ++ (nlChar :: (indentChars ind ++ rsqChar :: rest)))))
              = skipWs (prettyElems ind (y :: r)
                  ++ (nlChar :: (indentChars ind ++ rsqChar :: rest)))
              from by rw [skipWs_nl, skipWs_indent]) f d (x :: acc)]
          rw [ihE (y :: r) (by simp) hfy hcy d hdy (x :: acc) ind rest]
          simp
    · intro fs hne hfu hcan d hd acc ind rest hsort
      cases fs with
      | nil => exact absurd rfl hne
      | cons kv fs' =>
        obtain ⟨k, v⟩ := kv
        have hfv : fuelV v ≤ f := by simp only [fuelF] at hfu; omega
        have hcv : canonicalV v = true := by
          simp only [canonicalF, Bool.and_eq_true] at hcan; exact hcan.1
        have hdv : depthV v < d := by
          simp only [depthF] at hd
          omega
        have hins : insertAssoc acc k v = acc ++ [(k, v)] := by
          apply insertAssoc_append
          intro p hp
          have hmap : (acc ++ (k, v) :: fs').map Prod.fst
              = acc.map Prod.fst ++ k :: fs'.map Prod.fst := by simp
          rw [hmap] at hsort
          exact strictSorted_lt_of_mem_left (acc.map Prod.fst) k (fs'.map Prod.fst) hsort p.1
            (List.mem_map_of_mem _ hp)
        cases fs' with
        | nil =>
          have hsh : prettyFields ind [(k, v)] ++ (nlChar :: (indentChars ind ++ rbChar :: rest))
              = qChar :: ((k.data.map escapeChar).flatten
                  ++ qChar :: (':' :: ' ' :: (prettyV (ind + 1) v
                      ++ (nlChar :: (indentChars ind ++ rbChar :: rest))))) := by
            simp [prettyFields, serializeString]
          rw [hsh]
          simp only [parseMembers, if_true,
            skipWs_cons_not_ws (show isJsonWs qChar = false from by decide),
            parseStrAux_serializeString k,
            skipWs_cons_not_ws (show isJsonWs ':' = false from by decide),
            parseValue_eq_of_skipWs (show skipWs (' ' :: (prettyV (ind + 1) v
                ++ (nlChar :: (indentChars ind ++ rbChar :: rest))))
              = skipWs (prettyV (ind + 1) v ++ (nlChar :: (indentChars ind ++ rbChar :: rest)))
              from skipWs_cons_ws (by decide) _),
            ihV v hfv hcv d hdv (ind + 1) (nlChar :: (indentChars ind ++ rbChar :: rest))
              (numBoundary_nl _),
            String_mk_data, hins, skipWs_nl, skipWs_indent,
            skipWs_cons_not_ws (show isJsonWs rbChar = false from by decide)]
          rw [if_neg (show ¬ rbChar = ',' from by decide)]
        | cons m fs'' =>
          have hfm : fuelF (m :: fs'') ≤ f := by
            simp only [fuelF] at hfu ⊢
            have := fuelV_pos v
            omega
          have hcm : canonicalF (m :: fs'') = true := by
            simp only [canonicalF, Bool.and_eq_true] at hcan ⊢
            exact hcan.2
          have hdm : depthF (m :: fs'') < d := by
            simp only [depthF] at hd ⊢
            omega
          have hsh : prettyFields ind ((k, v) :: m :: fs'')
                ++ (nlChar :: (indentChars ind ++ rbChar :: rest))
              = qChar :: ((k.data.map escapeChar).flatten
                  ++ qChar :: (':' :: ' ' :: (prettyV (ind + 1) v
                      ++ (',' :: nlChar :: (indentChars (ind + 1)
                          ++ (prettyFields ind (m :: fs'')
                              ++ (nlChar :: (indentChars ind ++ rbChar :: rest)))))))) := by
            simp [prettyFields, serializeString]
          rw [hsh]
          simp only [parseMembers, if_true,
            skipWs_cons_not_ws (show isJsonWs qChar = false from by decide),
            parseStrAux_serializeString k,
            skipWs_cons_not_ws (show isJsonWs ':' = false from by decide),
            parseValue_eq_of_skipWs (show skipWs (' ' :: (prettyV (ind + 1) v ++ (',' :: nlChar
                :: (indentChars (ind + 1) ++ (prettyFields ind (m :: fs'')
                    ++ (nlChar :: (indentChars ind ++ rbChar :: rest)))))))
              = skipWs (prettyV (ind + 1) v ++ (',' :: nlChar :: (indentChars (ind + 1)
                  ++ (prettyFields ind (m :: fs'')
                      ++ (nlChar :: (indentChars ind ++ rbChar :: rest))))))
              from skipWs_cons_ws (by decide) _),
            ihV v hfv hcv d hdv (ind + 1) (',' :: nlChar :: (indentChars (ind + 1)
                ++ (prettyFields ind (m :: fs'')
                    ++ (nlChar :: (indentChars ind ++ rbChar :: rest)))))
              (numBoundary_comma _),
            String_mk_data, hins,
            skipWs_cons_not_ws (show isJsonWs ',' = false from by decide)]
          rw [parseMembers_eq_of_skipWs
            (show skipWs (nlChar :: (indentChars (ind + 1) ++ (prettyFields ind (m :: fs'')
                ++ (nlChar :: (indentChars ind ++ rbChar :: rest)))))
              = skipWs (prettyFields ind (m :: fs'')
                  ++ (nlChar :: (indentChars ind ++ rbChar :: rest)))
              from by rw [skipWs_nl, skipWs_indent]) f d (acc ++ [(k, v)])]
          rw [ihF (m :: fs'') (by simp) hfm hcm d hdm (acc ++ [(k, v)]) ind rest
            (by simpa using hsort)]
          simp

/-- Top-level round trip: `from_str`-style parsing of the pretty-printed form
of a canonical value recovers the value, provided the value's container
nesting stays below the deserializer's recursion limit of 128. -/
theorem jsonParseL_pretty (v : Json) (hv : canonicalV v = true) (hd : depthV v < 128) :
    jsonParseL (prettyV 0 v) = some v := by
  have hfu : fuelV v ≤ (prettyV 0 v).length + 1 := by
    have h := (fuel_le_pretty_length (sizeOf v)).1 v le_rfl 0
    omega
  have h := (parse_pretty_main ((prettyV 0 v).length + 1)).1 v hfu hv 128 hd 0 [] trivial
  rw [List.append_nil] at h
  unfold jsonParseL
  rw [h]
  rfl

/-- One builder step preserves canonicity of the wrapped value. -/
theorem canonicalV_applyOp (tc : AlpacaToolCall) (op : ToolOp)
    (h : canonicalV tc.object = true) (hop : opCanonical op = true) :
    canonicalV (applyOp tc op).object = true := by
  cases op with
  | setFunction fn => exact canonicalV_indexSet h (by rfl)
  | addArgument k v =>
    have ho : canonicalV (if (Json.fieldGet tc.object "arguments").isSome then tc.object
        else Json.indexSet tc.object "arguments" (Json.obj [])) = true := by
      by_cases hx : (Json.fieldGet tc.object "arguments").isSome
      · rw [if_pos hx]; exact h
      · rw [if_neg hx]; exact canonicalV_indexSet h (by rfl)
    show canonicalV (Json.indexSet
        (if (Json.fieldGet tc.object "arguments").isSome then tc.object
         else Json.indexSet tc.object "arguments" (Json.obj []))
        "arguments"
        (Json.indexSet (Json.index
          (if (Json.fieldGet tc.object "arguments").isSome then tc.object
           else Json.indexSet tc.object "arguments" (Json.obj [])) "arguments") k v)) = true
    exact canonicalV_indexSet ho (canonicalV_indexSet (canonicalV_index "arguments" ho) hop)

/-- Any canonical build sequence leaves the wrapped value canonical. -/
theorem canonical_foldl (ops : List ToolOp) :
    ∀ tc : AlpacaToolCall, (∀ op ∈ ops, opCanonical op = true) →
      canonicalV tc.object = true → canonicalV ((ops.foldl applyOp tc).object) = true := by
  induction ops with
  | nil => intro tc _ h; exact h
  | cons op rest ih =>
    intro tc hops h
    exact ih (applyOp tc op) (fun o ho => hops o (List.mem_cons_of_mem _ ho))
      (canonicalV_applyOp tc op h (hops op (List.mem_cons_self _ _)))

/-- The depth of the nested-array chain is its length. -/
theorem depthV_deepArr : ∀ n : Nat, depthV (deepArr n) = n := by
  intro n
  induction n with
  | zero => rfl
  | succ n ih =>
    show 1 + max (depthV (deepArr n)) 0 = n + 1
    rw [ih, Nat.max_zero]
    omega

/-- The nested-array chain is canonical at every length. -/
theorem canonicalV_deepArr : ∀ n : Nat, canonicalV (deepArr n) = true := by
  intro n
  induction n with
  | zero => rfl
  | succ n ih =>
    show canonicalV (Json.arr [deepArr n]) = true
    simp [canonicalV, canonicalL, ih]

/-- The recursion limit in action: parsing the printed form of an `n`-deep
array chain fails whenever the remaining depth is at most `n` — the parser
hits a `[` with its counter at 1 and returns `RecursionLimitExceeded`
(`none`), regardless of fuel. -/
theorem parse_deepArr_none :
    ∀ n : Nat, 1 ≤ n → ∀ F d ind rest, d ≤ n →
      parseValue F d (prettyV ind (deepArr n) ++ rest) = none := by
  intro n
  induction n with
  | zero => intro h; exact absurd h (by omega)
  | succ n ih =>
    intro _ F d ind rest hdn
    cases F with
    | zero => rfl
    | succ f =>
      have hsh : prettyV ind (deepArr (n + 1)) ++ rest
          = lsqChar :: nlChar :: (indentChars (ind + 1) ++ (prettyV (ind + 1) (deepArr n)
              ++ (nlChar :: (indentChars ind ++ rsqChar :: rest)))) := by
        simp [deepArr, prettyV, prettyElems]
      obtain ⟨c, t, hct, hws, hrsq⟩ := prettyV_head (ind + 1) (deepArr n)
      have hskip : skipWs (nlChar :: (indentChars (ind + 1) ++ (prettyV (ind + 1) (deepArr n)
          ++ (nlChar :: (indentChars ind ++ rsqChar :: rest)))))
          = c :: (t ++ (nlChar :: (indentChars ind ++ rsqChar :: rest))) := by
        rw [skipWs_nl, skipWs_indent, hct, List.cons_append, skipWs_cons_not_ws hws]
      rw [hsh]
      by_cases hd1 : d ≤ 1
      · simp only [parseValue,
          skipWs_cons_not_ws (show isJsonWs lsqChar = false from by decide)]
        rw [if_neg (show ¬ lsqChar = qChar from by decide),
          if_neg (show ¬ lsqChar = lbChar from by decide), if_pos trivial, if_pos hd1]
      · simp only [parseValue,
          skipWs_cons_not_ws (show isJsonWs lsqChar = false from by decide), hskip]
        rw [if_neg (show ¬ lsqChar = qChar from by decide),
          if_neg (show ¬ lsqChar = lbChar from by decide), if_pos trivial, if_neg hd1,
          if_neg hrsq,
          show c :: (t ++ (nlChar :: (indentChars ind ++ rsqChar :: rest)))
              = prettyV (ind + 1) (deepArr n)
                  ++ (nlChar :: (indentChars ind ++ rsqChar :: rest))
            from by rw [hct]; rfl]
        cases f with
        | zero => rfl
        | succ f2 =>
          simp only [parseElems,
            ih (by omega) f2 (d - 1) (ind + 1)
              (nlChar :: (indentChars ind ++ rsqChar :: rest)) (by omega)]

/-- Wrapping a value whose printed form fails to parse at depths up to `D` in
a one-field object produces a printed form that fails at depths up to
`D + 1`: the `{` costs one depth unit and the member's value parse then
fails, which the member loop propagates. -/
theorem parseValue_single_obj_none {v : Json} {D : Nat}
    (hv : ∀ F d ind rest, d ≤ D → parseValue F d (prettyV ind v ++ rest) = none) :
    ∀ (k : String) (F d ind : Nat) (rest : List Char), d ≤ D + 1 →
      parseValue F d (prettyV ind (Json.obj [(k, v)]) ++ rest) = none := by
  intro k F d ind rest hd
  cases F with
  | zero => rfl
  | succ f =>
    have hsh : prettyV ind (Json.obj [(k, v)]) ++ rest
        = lbChar :: nlChar :: (indentChars (ind + 1) ++ (prettyFields ind [(k, v)]
            ++ (nlChar :: (indentChars ind ++ rbChar :: rest)))) := by
      simp [prettyV]
    obtain ⟨t, hft⟩ := prettyFields_head ind k v []
    have hskip : skipWs (nlChar :: (indentChars (ind + 1) ++ (prettyFields ind [(k, v)]
        ++ (nlChar :: (indentChars ind ++ rbChar :: rest)))))
        = qChar :: (t ++ (nlChar :: (indentChars ind ++ rbChar :: rest))) := by
      rw [skipWs_nl, skipWs_indent, hft, List.cons_append,
        skipWs_cons_not_ws (show isJsonWs qChar = false from by decide)]
    rw [hsh]
    by_cases hd1 : d ≤ 1
    · simp only [parseValue,
        skipWs_cons_not_ws (show isJsonWs lbChar = false from by decide)]
      rw [if_neg (show ¬ lbChar = qChar from by decide), if_pos trivial, if_pos hd1]
    · simp only [parseValue,
        skipWs_cons_not_ws (show isJsonWs lbChar = false from by decide), hskip]
      rw [if_neg (show ¬ lbChar = qChar from by decide), if_pos trivial, if_neg hd1,
        if_neg (show ¬ qChar = rbChar from by decide),
        show qChar :: (t ++ (nlChar :: (indentChars ind ++ rbChar :: rest)))
            = prettyFields ind [(k, v)] ++ (nlChar :: (indentChars ind ++ rbChar :: rest))
          from by rw [hft]; rfl]
      cases f with
      | zero => rfl
      | succ f2 =>
        have hsh2 : prettyFields ind [(k, v)]
              ++ (nlChar :: (indentChars ind ++ rbChar :: rest))
            = qChar :: ((k.data.map escapeChar).flatten
                ++ qChar :: (':' :: ' ' :: (prettyV (ind + 1) v
                    ++ (nlChar :: (indentChars ind ++ rbChar :: rest))))) := by
          simp [prettyFields, serializeString]
        rw [hsh2]
        simp only [parseMembers, if_true,
          skipWs_cons_not_ws (show isJsonWs qChar = false from by decide),
          parseStrAux_serializeString k,
          skipWs_cons_not_ws (show isJsonWs ':' = false from by decide),
          parseValue_eq_of_skipWs (show skipWs (' ' :: (prettyV (ind + 1) v
              ++ (nlChar :: (indentChars ind ++ rbChar :: rest))))
            = skipWs (prettyV (ind + 1) v ++ (nlChar :: (indentChars ind ++ rbChar :: rest)))
            from skipWs_cons_ws (by decide) _),
          hv f2 (d - 1) (ind + 1) (nlChar :: (indentChars ind ++ rbChar :: rest))
            (by omega)]

/-- C9 (amended): a tool call built incrementally from `new` by any sequence
of `set_function` and `add_argument` steps (inserting canonical values —
every `serde_json::Value` is) round-trips through text, provided the built
value's container nesting stays below `serde_json`'s deserialization
recursion limit of 128: `from_str` on its `to_string_pretty` output then
succeeds and yields a tool call with the same function name and the same
arguments mapping.  Without the depth bound the round trip fails —
serialization is unbounded but `from_str` returns `RecursionLimitExceeded`
on deeper nesting (see the counterexample). -/
theorem C9_round_trip (ops : List ToolOp) (hops : ∀ op ∈ ops, opCanonical op = true)
    (hdepth : depthV ((ops.foldl applyOp AlpacaToolCall.new).object) < 128) :
    ∃ tc2 : AlpacaToolCall,
      AlpacaToolCall.from_str
          (AlpacaToolCall.to_string_pretty (ops.foldl applyOp AlpacaToolCall.new)) = some tc2
        ∧ tc2.function = (ops.foldl applyOp AlpacaToolCall.new).function
        ∧ ∀ a, tc2.argument a = (ops.foldl applyOp AlpacaToolCall.new).argument a := by
  refine ⟨ops.foldl applyOp AlpacaToolCall.new, ?_, rfl, fun a => rfl⟩
  have hc : canonicalV ((ops.foldl applyOp AlpacaToolCall.new).object) = true :=
    canonical_foldl ops AlpacaToolCall.new hops (by rfl)
  show (jsonParseL (String.mk
        (prettyV 0 (ops.foldl applyOp AlpacaToolCall.new).object)).data).map
      (fun v => (⟨v⟩ : AlpacaToolCall)) = _
  rw [show (String.mk (prettyV 0 (ops.foldl applyOp AlpacaToolCall.new).object)).data
      = prettyV 0 (ops.foldl applyOp AlpacaToolCall.new).object from rfl]
  rw [jsonParseL_pretty _ hc hdepth]
  rfl

/-- Witness for C9 (amended) at a concrete build sequence within the depth
limit. -/
theorem C9_witness :
    (∀ op ∈ [ToolOp.setFunction "search", ToolOp.addArgument "query" (Json.str "rust")],
        opCanonical op = true)
    ∧ depthV (([ToolOp.setFunction "search",
            ToolOp.addArgument "query" (Json.str "rust")].foldl applyOp
          AlpacaToolCall.new).object) < 128
    ∧ ∃ tc2 : AlpacaToolCall,
        AlpacaToolCall.from_str
            (AlpacaToolCall.to_string_pretty
              ([ToolOp.setFunction "search",
                ToolOp.addArgument "query" (Json.str "rust")].foldl applyOp
                AlpacaToolCall.new)) = some tc2
          ∧ tc2.function
              = ([ToolOp.setFunction "search",
                  ToolOp.addArgument "query" (Json.str "rust")].foldl applyOp
                  AlpacaToolCall.new).function
          ∧ ∀ a, tc2.argument a
              = ([ToolOp.setFunction "search",
                  ToolOp.addArgument "query" (Json.str "rust")].foldl applyOp
                  AlpacaToolCall.new).argument a :=
  ⟨by decide, by decide, C9_round_trip _ (by decide) (by decide)⟩


/-- `from_str` fails whenever the top-level parse at the deserializer's
starting depth fails. -/
theorem jsonParseL_eq_none {s : List Char}
    (h : parseValue (s.length + 1) 128 s = none) : jsonParseL s = none := by
  unfold jsonParseL
  rw [h]

set_option maxRecDepth 4096 in
/-- Counterexample to C9 as stated: one `add_argument` with a value nested
126 arrays deep (a legitimate, canonical `serde_json::Value`) builds a tool
call of container depth 128 whose `to_string_pretty` output `from_str`
fails to parse back — the deserializer's recursion limit of 128 is
exceeded, while serialization has no such limit.  The claim's unconditional
round trip therefore fails. -/
theorem C9_counterexample :
    opCanonical (ToolOp.addArgument "a" (deepArr 126)) = true
    ∧ depthV (([ToolOp.addArgument "a" (deepArr 126)].foldl applyOp
        AlpacaToolCall.new).object) = 128
    ∧ AlpacaToolCall.from_str
        (AlpacaToolCall.to_string_pretty
          ([ToolOp.addArgument "a" (deepArr 126)].foldl applyOp AlpacaToolCall.new)) = none := by
  refine ⟨canonicalV_deepArr 126, ?_, ?_⟩
  · show 1 + max (1 + max (depthV (deepArr 126)) 0) 0 = 128
    rw [depthV_deepArr, Nat.max_zero, Nat.max_zero]
  · have h126 : ∀ F d ind rest, d ≤ 126 →
        parseValue F d (prettyV ind (deepArr 126) ++ rest) = none :=
      fun F d ind rest hd => parse_deepArr_none 126 (by omega) F d ind rest hd
    have h127 := parseValue_single_obj_none h126 "a"
    have h128 := parseValue_single_obj_none (fun F d ind rest hd => h127 F d ind rest hd)
      "arguments"
    have h : parseValue
        ((prettyV 0 (Json.obj [("arguments", Json.obj [("a", deepArr 126)])])).length + 1) 128
        (prettyV 0 (Json.obj [("arguments", Json.obj [("a", deepArr 126)])])) = none := by
      have h2 := h128
          ((prettyV 0 (Json.obj [("arguments", Json.obj [("a", deepArr 126)])])).length + 1)
          128 0 [] (by omega)
      rw [List.append_nil] at h2
      exact h2
    show (jsonParseL (String.mk (prettyV 0 (Json.obj [("arguments",
        Json.obj [("a", deepArr 126)])]))).data).map (fun v => (⟨v⟩ : AlpacaToolCall)) = none
    rw [jsonParseL_eq_none h]
    rfl
